import Mathlib

/-!
Verification development for the qr_trees trajectory-optimization library.

This file gives a shallow embedding, over exact rational arithmetic, of:
* the single-chain iLQR solver (`src/templated/iLQR_impl.hh`),
* the hindsight (multi-branch) iLQR solver (`src/templated/iLQR_hindsight_impl.hh`),
* the LQR-tree Bellman backup (`src/lqr/lqr_tree.cc`),
and proves the specification claims about them.

Modelling conventions:
* Fixed-size Eigen matrices `Matrix<n, m>` become `Matrix (Fin n) (Fin m) ℚ`;
  Eigen column vectors `Vector<n>` become `Matrix (Fin n) (Fin 1) ℚ`.
* IEEE doubles are modelled by exact rationals.  The two places where IEEE
  special values matter are modelled structurally: the `+∞` initial `old_cost`
  becomes `Option ℚ` (`none` = `+∞`), and the line-search ratio comparison
  `|old-new|/|new| < convg` is `false` whenever `new = 0`, because in IEEE
  that quotient is `NaN` or `±∞` and the `<` comparison is false either way.
* Eigen's unchecked dense `.inverse()` is modelled by the totalized
  adjugate/determinant inverse `minv` below: for an invertible matrix it is
  the true inverse; for a singular matrix the rational `det⁻¹ = 0` makes the
  result the zero matrix (where IEEE would give non-finite entries).  The
  source performs no invertibility test, and neither does the model.
* The user-supplied callbacks (dynamics, running cost, terminal cost) and the
  numerical-differentiation helpers `linearize_dynamics` / `quadratize_cost`
  (out of scope per spec section 1, fixed contract per section 4.1) are opaque
  oracle functions bundled in `Oracles`.
* The `IS_*` macros from `utils/debug_utils.hh` are not under `src/`; per the
  spec (section 7) they are fail-fast checks that abort the call, modelled by
  the `Res.thrown` result.  Non-terminating loops are modelled with fuel;
  exhausted fuel is `Res.fuelOut`.
-/

open Matrix

/-- Fixed-size rational matrix, modelling `Eigen::Matrix<double, n, m>`. -/
abbrev Mat (n m : ℕ) : Type := Matrix (Fin n) (Fin m) ℚ

/-- Fixed-size rational column vector, modelling `Eigen::Matrix<double, n, 1>`. -/
abbrev Vec (n : ℕ) : Type := Matrix (Fin n) (Fin 1) ℚ

/-- Models Eigen's unchecked dense `.inverse()` (cofactor formula
`adjugate / det` for small fixed sizes).  Totalized over ℚ: a singular input
yields the zero matrix, where IEEE doubles would yield non-finite entries.
For an invertible matrix this equals the true inverse.  The point preserved
from the source is that no singularity check guards any call to it. -/
def minv {n : ℕ} (M : Mat n n) : Mat n n := M.det⁻¹ • M.adjugate

/-- The quadratized running cost at one `(x, u, t)`: output contract of
`quadratize_cost(cost_, t, x, u, Q, R, P, g_x, g_u)` (spec section 4.1). -/
structure QuadCost (n m : ℕ) where
  Q : Mat n n
  R : Mat m m
  P : Mat n m
  g_x : Vec n
  g_u : Vec m

/-- The problem callbacks of one chain/branch, together with the (opaque,
spec-section-4.1) numerical-differentiation helpers applied to them:
`dynamics_`, `cost_`, `final_cost_`, and the oracle views
`linearize_dynamics`, `quadratize_cost` (running) and `quadratize_final`
(terminal, returning `(QT, gT)`). -/
structure Oracles (n m : ℕ) where
  dynamics : Vec n → Vec m → Vec n
  cost : Vec n → Vec m → ℕ → ℚ
  final_cost : Vec n → ℚ
  linearize_dynamics : Vec n → Vec m → Mat n n × Mat n m
  quadratize_cost : ℕ → Vec n → Vec m → QuadCost n m
  quadratize_final : Vec n → Mat n n × Vec n

/-- Result of one Bellman backup step: the value model `(Vt, Gt)` at time `t`
and the gains `(Kt, kt)` written into the solver state. -/
structure BackupOut (n m : ℕ) where
  Vt : Mat n n
  Gt : Mat 1 n
  Kt : Mat m n
  kt : Vec m

/-- One Bellman-LM backup step.  Embeds `iLQRSolver::bellman_backup`
(`iLQR_impl.hh:183-226`); `iLQRHindsightSolver::bellman_backup`
(`iLQR_hindsight_impl.hh:342-387`) is the identical computation with the
branch's callbacks, so both are embedded by this one definition.  The
linearization point `(xh, uh)` is the caller's `xhat_[t], uhat_[t]`. -/
def bellman_backup {n m : ℕ} (orc : Oracles n m) (t : ℕ) (mu : ℚ)
    (xh : Vec n) (uh : Vec m) (Vt1 : Mat n n) (Gt1 : Mat 1 n) : BackupOut n m :=
  let A := (orc.linearize_dynamics xh uh).1
  let B := (orc.linearize_dynamics xh uh).2
  let qc := orc.quadratize_cost t xh uh
  let LM : Mat n n := mu • (1 : Mat n n)
  let inv_term : Mat m m := (-1 : ℚ) • minv (qc.R + Bᵀ * (Vt1 + LM) * B)
  let Kt : Mat m n := inv_term * (qc.Pᵀ + Bᵀ * (Vt1 + LM) * A)
  let kt : Vec m := inv_term * (qc.g_u + Bᵀ * Gt1ᵀ)
  let tmp : Mat n n := A + B * Kt
  let Vt : Mat n n := qc.Q + (2 : ℚ) • (qc.P * Kt) + Ktᵀ * qc.R * Kt + tmpᵀ * Vt1 * tmp
  let Gt : Mat 1 n := ktᵀ * qc.Pᵀ + ktᵀ * qc.R * Kt + qc.g_xᵀ + qc.g_uᵀ * Kt
    + ktᵀ * Bᵀ * Vt1 * tmp + Gt1 * tmp
  ⟨Vt, Gt, Kt, kt⟩

/-- `iLQRSolver::compute_control_stepsize` (`iLQR_impl.hh:20-31`) and its
hindsight analogue (`iLQR_hindsight_impl.hh:38-52`):
`u_t = K_t (x_t − x̂_t) + α k_t + û_t`. -/
def compute_control_stepsize {n m : ℕ} (Kt : Mat m n) (kt : Vec m)
    (xh : Vec n) (uh : Vec m) (xt : Vec n) (alpha : ℚ) : Vec m :=
  Kt * (xt - xh) + alpha • kt + uh

/-- Forward rollout, embedding the loop body of `iLQRSolver::forward_pass`
(`iLQR_impl.hh:33-62`) and `iLQRHindsightSolver::forward_pass`
(`iLQR_hindsight_impl.hh:54-91`).  The recursion walks the four state lists in
parallel (the solver's `timesteps()` asserts they have equal lengths `T`, with
`xhat` of length `T+1`); `t` is the running step index.  Returns
`(states, controls, cost_to_go)`. -/
def forward_pass_aux {n m : ℕ} (orc : Oracles n m) :
    List (Mat m n) → List (Vec m) → List (Vec m) → List (Vec n) →
    Vec n → ℕ → ℚ → List (Vec n) × List (Vec m) × ℚ
  | K :: Ks, k :: ks, uh :: uhs, xh :: xhs, xt, t, alpha =>
      let ut := compute_control_stepsize K k xh uh xt alpha
      let c := orc.cost xt ut t
      let rest := forward_pass_aux orc Ks ks uhs xhs (orc.dynamics xt ut) (t + 1) alpha
      (xt :: rest.1, ut :: rest.2.1, c + rest.2.2)
  | _, _, _, _, xt, _, _ => ([xt], [], orc.final_cost xt)

/-- Result of a `solve()` call: `thrown` models an `IS_*` macro aborting the
call (spec section 7 fail-fast errors), `fuelOut` models non-termination of
the unbounded line-search `while` loop, `ok` is a normal return with the
final solver state. -/
inductive Res (σ : Type) where
  | thrown : Res σ
  | fuelOut : Res σ
  | ok : σ → Res σ
deriving DecidableEq

/-- Functorial map on `Res`. -/
def Res.map {σ τ : Type} (f : σ → τ) : Res σ → Res τ
  | .thrown => .thrown
  | .fuelOut => .fuelOut
  | .ok s => .ok (f s)

/-- True exactly on a normal return. -/
def Res.isOk {σ : Type} : Res σ → Bool
  | .ok _ => true
  | _ => false

/-- True exactly on an aborted (`IS_*`-thrown) call. -/
def Res.isThrown {σ : Type} : Res σ → Bool
  | .thrown => true
  | _ => false

/-- Holds of the state of a normal return; vacuous otherwise. -/
def Res.all {σ : Type} (P : σ → Prop) : Res σ → Prop
  | .ok s => P s
  | _ => True

/-- IEEE-faithful model of `cost_diff_ratio < cost_convg_ratio` where
`cost_diff_ratio = std::abs((old_cost - new_cost) / new_cost)`
(`iLQR_impl.hh:125,131`).  With `old_cost = +∞` (`none`) the ratio is `+∞`
and the comparison is false; with `new_cost = 0` the IEEE quotient is `NaN`
(if also `old = new`) or `±∞`, and `<` is false either way. -/
def ratioOkB (old : Option ℚ) (nc convg : ℚ) : Bool :=
  match old with
  | none => false
  | some oc => if nc = 0 then false else decide (|oc - nc| / |nc| < convg)

/-- The line-search acceptance test `new_cost < old_cost || cost_diff_ratio <
cost_convg_ratio` (negation of the `while` guard, `iLQR_impl.hh:127`).  With
`old_cost = +∞` any (finite, hence rational) new cost is accepted. -/
def acceptB (old : Option ℚ) (nc convg : ℚ) : Bool :=
  (match old with
   | none => true
   | some oc => decide (nc < oc)) || ratioOkB old nc convg

/-- The backtracking line search (`iLQR_impl.hh:114-135`,
`iLQR_hindsight_impl.hh:183-214`): evaluate the rollout cost `fp alpha`,
accept when `acceptB`, else retry with `alpha * beta` (`beta = 0.5`).  The
source loop is unbounded; `fuel` bounds the model, `none` = the loop never
accepted within `fuel` attempts.  Returns `(new_cost, ratio_test_passed,
accepted_alpha)`; the accepted alpha is what the hindsight source recovers by
`alpha = (1.0/beta)*alpha` after the loop, and is the step size whose rollout
the single-chain source keeps in its `xhat_new`/`uhat_new` buffers. -/
def line_search (fp : ℚ → ℚ) (convg : ℚ) : ℕ → Option ℚ → ℚ → Option (ℚ × Bool × ℚ)
  | 0, _, _ => none
  | fuel + 1, old, alpha =>
      let nc := fp alpha
      if acceptB old nc convg then some (nc, ratioOkB old nc convg, alpha)
      else line_search fp convg fuel old (alpha * (1 / 2))

/-- Mutable state of `iLQRSolver`: feedback gains `Ks_`, feed-forward `ks_`,
nominal controls `uhat_` and nominal states `xhat_`. -/
structure SChain (n m : ℕ) where
  Ks : List (Mat m n)
  ks : List (Vec m)
  uhat : List (Vec m)
  xhat : List (Vec n)

/-- Backwards value sweep: processes `t = stop + count - 1` down to
`t = stop`, threading the value model `(V, G)` through `bellman_backup`, and
returns the final value model (that of time `stop`) together with the gain
lists for `t = stop, ..., stop + count - 1` in index order.  With `stop = 0`
this is the single-chain loop `for (t = T-1; t >= 0; --t)`
(`iLQR_impl.hh:164-173`); with `stop = 1` it is the per-branch hindsight loop
`for (t = T-1; t > 0; --t)` (`iLQR_hindsight_impl.hh:265-270`). -/
def backward_sweep {n m : ℕ} (orc : Oracles n m) (mu : ℚ)
    (xhat : List (Vec n)) (uhat : List (Vec m)) (stop : ℕ) :
    ℕ → Mat n n → Mat 1 n → (Mat n n × Mat 1 n) × List (Mat m n) × List (Vec m)
  | 0, V, G => ((V, G), [], [])
  | count + 1, V, G =>
      let t := stop + count
      let out := bellman_backup orc t mu (xhat.getD t 0) (uhat.getD t 0) V G
      let rest := backward_sweep orc mu xhat uhat stop count out.Vt out.Gt
      (rest.1, rest.2.1 ++ [out.Kt], rest.2.2 ++ [out.kt])

/-- The single-chain backward pass (`iLQR_impl.hh:158-173`): quadratize the
terminal cost at `xhat_[T]` to seed `(V_T, g_T)`, then sweep `t = T-1` down
to `0`.  Returns the new gain lists. -/
def backward_pass {n m : ℕ} (orc : Oracles n m) (mu : ℚ) (T : ℕ)
    (s : SChain n m) : List (Mat m n) × List (Vec m) :=
  let qf := orc.quadratize_final (s.xhat.getD T 0)
  (backward_sweep orc mu s.xhat s.uhat 0 T qf.1 qf.2ᵀ).2

/-- Rollout cost of the current single-chain state from `x_init` at step
size `alpha` (the `forward_pass` return value used by the line search). -/
def chain_cost {n m : ℕ} (orc : Oracles n m) (s : SChain n m)
    (x_init : Vec n) (alpha : ℚ) : ℚ :=
  (forward_pass_aux orc s.Ks s.ks s.uhat s.xhat x_init 0 alpha).2.2

/-- The outer iteration loop of `iLQRSolver::solve` (`iLQR_impl.hh:106-174`):
line search, commit the accepted rollout, stop if the ratio test passed,
otherwise update `old_cost` and run the backward pass.  The first argument of
the recursion is the remaining iteration budget (`max_iters - iter`). -/
def iterateSingle {n m : ℕ} (orc : Oracles n m) (T : ℕ) (x_init : Vec n)
    (mu convg start_alpha : ℚ) (fuel : ℕ) :
    ℕ → Option ℚ → SChain n m → Res (SChain n m)
  | 0, _, s => .ok s
  | iters + 1, old, s =>
      match line_search (chain_cost orc s x_init) convg fuel old start_alpha with
      | none => .fuelOut
      | some r =>
          let roll := forward_pass_aux orc s.Ks s.ks s.uhat s.xhat x_init 0 r.2.2
          let s1 : SChain n m := { s with uhat := roll.2.1, xhat := roll.1 }
          if r.2.1 then .ok s1
          else
            let bp := backward_pass orc mu T s1
            iterateSingle orc T x_init mu convg start_alpha fuel iters (some r.1)
              { s1 with Ks := bp.1, ks := bp.2 }

/-- Warm-start state preparation of the single-chain solver
(`iLQR_impl.hh:86-101`): require `Ks_.size() > t_offset`, drop the first
`t_offset` entries of each list, then require the remaining sizes to match
`T` (and `T+1` for `xhat_`).  `none` models the `IS_*` throw. -/
def warmSingle {n m : ℕ} (T t_offset : ℕ) (s : SChain n m) : Option (SChain n m) :=
  if t_offset < s.Ks.length then
    let s1 : SChain n m := ⟨s.Ks.drop t_offset, s.ks.drop t_offset,
      s.uhat.drop t_offset, s.xhat.drop t_offset⟩
    if s1.Ks.length = T ∧ s1.ks.length = T ∧ s1.uhat.length = T ∧
        s1.xhat.length = T + 1 then some s1 else none
  else none

/-- `iLQRSolver::solve` (`iLQR_impl.hh:64-180`).  The leading `IS_*`
precondition checks (`:72-76`) throw unless `T > 0`, `mu ≥ 0`,
`max_iters > 0`, `cost_convg_ratio > 0` (`convg`), `start_alpha > 0`.
Cold start zero-initializes the gains and nominal trajectory
(`:78-85`); warm start reuses `s_prev` via `warmSingle`.  `T` is a natural
number (the source's negative-`int` inputs are subsumed by the `T = 0`
rejection).  `verbose` logging has no observable effect and is omitted. -/
def solveSingle {n m : ℕ} (orc : Oracles n m) (T : ℕ) (x_init : Vec n)
    (u_nominal : Vec m) (mu : ℚ) (max_iters : ℕ) (convg start_alpha : ℚ)
    (warm_start : Bool) (t_offset : ℕ) (s_prev : SChain n m) (fuel : ℕ) :
    Res (SChain n m) :=
  if 0 < T ∧ 0 ≤ mu ∧ 0 < max_iters ∧ 0 < convg ∧ 0 < start_alpha then
    match (if warm_start then warmSingle T t_offset s_prev
           else some ⟨List.replicate T 0, List.replicate T 0,
                      List.replicate T u_nominal, List.replicate (T + 1) 0⟩) with
    | none => .thrown
    | some s0 => iterateSingle orc T x_init mu convg start_alpha fuel max_iters none s0
  else .thrown

/-- The mutable data of one `HindsightBranch` (`iLQR_hindsight.hh`):
probability, per-time gains and nominal trajectory.  The branch's callbacks
(`dynamics`, `cost`, `final_cost` members) are immutable through `solve` and
are carried in a parallel `List (Oracles n m)` of the same length, so that
solver states stay within decidable-data types. -/
structure BranchData (n m : ℕ) where
  probability : ℚ
  Ks : List (Mat m n)
  ks : List (Vec m)
  uhat : List (Vec m)
  xhat : List (Vec n)

instance {n m : ℕ} : Inhabited (BranchData n m) := ⟨⟨0, [], [], [], []⟩⟩

/-- Mutable state of `iLQRHindsightSolver`: the branch list and the shared
first-stage quantities `xhat0_`, `uhat0_`, `K0_`, `k0_`. -/
structure HState (n m : ℕ) where
  branches : List (BranchData n m)
  xhat0 : Vec n
  uhat0 : Vec m
  K0 : Mat m n
  k0 : Vec m

/-- `iLQRHindsightSolver::total_branch_probability`
(`iLQR_hindsight_impl.hh:409-418`): accumulate the branch probabilities. -/
def total_branch_probability {n m : ℕ} (bs : List (BranchData n m)) : ℚ :=
  bs.foldl (fun acc b => acc + b.probability) 0

/-- Modelled from the spec: `math::is_equal` from `utils/math_utils.hh` is
not under `src/`; spec section 8 invariant 3 phrases the asserted agreement
as "bitwise (or within 10⁻¹²)", so approximate equality is modelled with
entrywise tolerance `10⁻¹²`. -/
def is_equal {n m : ℕ} (a b : Mat n m) : Bool :=
  decide (∀ i j, |a i j - b i j| ≤ 1 / 10 ^ 12)

/-- One branch's forward rollout (`iLQRHindsightSolver::forward_pass`,
`iLQR_hindsight_impl.hh:54-91`), using the branch's own callbacks and data. -/
def branch_fp {n m : ℕ} (orc : Oracles n m) (b : BranchData n m)
    (x_init : Vec n) (alpha : ℚ) : List (Vec n) × List (Vec m) × ℚ :=
  forward_pass_aux orc b.Ks b.ks b.uhat b.xhat x_init 0 alpha

/-- The expected cost accumulated across branches in the hindsight line
search (`iLQR_hindsight_impl.hh:198-205`): `new_cost += p * branch_cost`,
starting from `0`, in branch order. -/
def hind_cost {n m : ℕ} (orcs : List (Oracles n m)) (bs : List (BranchData n m))
    (x_init : Vec n) (alpha : ℚ) : ℚ :=
  (orcs.zip bs).foldl
    (fun acc ob => acc + ob.2.probability * (branch_fp ob.1 ob.2 x_init alpha).2.2) 0

/-- One branch's backward sweep (`iLQR_hindsight_impl.hh:252-273`): seed
`(V, G)` by quadratizing the branch's terminal cost at `branch.xhat.back()`
(index `T` of the `T+1`-long list), then sweep `t = T-1` down to `t = 1`
("until `t > 0` ... since we handle the first timestep separately").
Returns the boundary pair `(V_1, g_1)` and the gains for `t = 1..T-1`. -/
def branch_sweep {n m : ℕ} (orc : Oracles n m) (mu : ℚ) (T : ℕ)
    (b : BranchData n m) :
    (Mat n n × Mat 1 n) × List (Mat m n) × List (Vec m) :=
  let qf := orc.quadratize_final (b.xhat.getD T 0)
  backward_sweep orc mu b.xhat b.uhat 1 (T - 1) qf.1 qf.2ᵀ

/-- Accumulators of the shared `t = 0` merge
(`iLQR_hindsight_impl.hh:276-318`): `weighted_inv_term`, `weighted_Kt_term`,
`weighted_kt_term` and the probability-weighted cost quadratics `wQ`, `wR`,
`wP`, `wg_x`, `wg_u`. -/
structure MergeAcc (n m : ℕ) where
  weighted_inv_term : Mat m m
  weighted_Kt_term : Mat m n
  weighted_kt_term : Vec m
  wQ : Mat n n
  wR : Mat m m
  wP : Mat n m
  wg_x : Vec n
  wg_u : Vec m

/-- The merge accumulation loop (`iLQR_hindsight_impl.hh:290-318`) over the
branches paired with their boundary values `(V_1^b, g_1^b)`: each branch's
dynamics are linearized and its running cost quadratized at the shared
`(xhat0, uhat0)` (time `0`), and all eight accumulators are updated with the
branch's probability weight. -/
def merge_step {n m : ℕ} (mu : ℚ) (xhat0 : Vec n) (uhat0 : Vec m)
    (acc : MergeAcc n m) (obvg : Oracles n m × BranchData n m × Mat n n × Mat 1 n) :
    MergeAcc n m :=
  let orc := obvg.1
  let p : ℚ := obvg.2.1.probability
  let A : Mat n n := (orc.linearize_dynamics xhat0 uhat0).1
  let B : Mat n m := (orc.linearize_dynamics xhat0 uhat0).2
  let Vt1 : Mat n n := obvg.2.2.1
  let Gt1 : Mat 1 n := obvg.2.2.2
  let LM : Mat n n := mu • (1 : Mat n n)
  let qc := orc.quadratize_cost 0 xhat0 uhat0
  { weighted_inv_term := acc.weighted_inv_term + p • (Bᵀ * (Vt1 + LM) * B),
    weighted_Kt_term := acc.weighted_Kt_term + p • (Bᵀ * (Vt1 + LM) * A),
    weighted_kt_term := acc.weighted_kt_term + p • (Bᵀ * Gt1ᵀ),
    wQ := acc.wQ + p • qc.Q,
    wR := acc.wR + p • qc.R,
    wP := acc.wP + p • qc.P,
    wg_x := acc.wg_x + p • qc.g_x,
    wg_u := acc.wg_u + p • qc.g_u }

/-- The merge accumulation loop as a fold of `merge_step` over the branches,
starting from the `setZero()` accumulators (`iLQR_hindsight_impl.hh:276-289`). -/
def merge_fold {n m : ℕ} (mu : ℚ) (xhat0 : Vec n) (uhat0 : Vec m)
    (l : List (Oracles n m × BranchData n m × Mat n n × Mat 1 n)) : MergeAcc n m :=
  l.foldl (merge_step mu xhat0 uhat0) ⟨0, 0, 0, 0, 0, 0, 0, 0⟩

/-- The per-branch commit of the rollout at the accepted alpha
(`iLQR_hindsight_impl.hh:217-227`): each branch's `xhat`/`uhat` are replaced
by its own forward pass from the shared `x_init`. -/
def hind_roll {n m : ℕ} (orcs : List (Oracles n m)) (x_init : Vec n) (alpha : ℚ)
    (bs : List (BranchData n m)) : List (BranchData n m) :=
  (orcs.zip bs).map (fun ob =>
    ({ ob.2 with
       xhat := (branch_fp ob.1 ob.2 x_init alpha).1,
       uhat := (branch_fp ob.1 ob.2 x_init alpha).2.1 } : BranchData n m))

/-- The backward section of one hindsight iteration
(`iLQR_hindsight_impl.hh:249-328`): per-branch sweep to the boundary pair,
the probability-weighted merge producing `(K0, k0)`, and the copy of
`K0, k0` into every branch's first slot.  Returns `((K0, k0), branches)`. -/
def hind_backward {n m : ℕ} (orcs : List (Oracles n m)) (T : ℕ) (mu : ℚ)
    (xhat0 : Vec n) (uhat0 : Vec m) (rolled : List (BranchData n m)) :
    (Mat m n × Vec m) × List (BranchData n m) :=
  let swept := (orcs.zip rolled).map (fun ob =>
    (ob.1, ob.2, (branch_sweep ob.1 mu T ob.2).1))
  let acc := merge_fold mu xhat0 uhat0 swept
  let inv_term := (-1 : ℚ) • minv (acc.wR + acc.weighted_inv_term)
  let K0 := inv_term * (acc.wPᵀ + acc.weighted_Kt_term)
  let k0 := inv_term * (acc.wg_u + acc.weighted_kt_term)
  ((K0, k0), (orcs.zip rolled).map (fun ob =>
    ({ ob.2 with
       Ks := K0 :: (branch_sweep ob.1 mu T ob.2).2.1,
       ks := k0 :: (branch_sweep ob.1 mu T ob.2).2.2 } : BranchData n m)))

/-- The outer iteration loop of `iLQRHindsightSolver::solve`
(`iLQR_hindsight_impl.hh:177-333`): shared line search over the expected
cost; per-branch commit of the rollout at the accepted alpha (`hind_roll`),
with the shared `xhat0_`, `uhat0_` taken from branch 0's new first
state/control (`:217-231`); `old_cost` update then the convergence break
(`:241-246`); the backward section (`hind_backward`, `:249-328`); and the
`IS_TRUE(math::is_equal(...))` assertions on every branch's `xhat[0]` and
`uhat[0]` (`:329-331`), modelled as a `thrown` result when the asserted
agreement fails. -/
def iterateHind {n m : ℕ} (orcs : List (Oracles n m)) (T : ℕ) (x_init : Vec n)
    (mu convg start_alpha : ℚ) (fuel : ℕ) :
    ℕ → Option ℚ → HState n m → Res (HState n m)
  | 0, _, s => .ok s
  | iters + 1, old, s =>
      match line_search (hind_cost orcs s.branches x_init) convg fuel old start_alpha with
      | none => .fuelOut
      | some r =>
          let rolled := hind_roll orcs x_init r.2.2 s.branches
          let xhat0 := (rolled.headD default).xhat.headD 0
          let uhat0 := (rolled.headD default).uhat.headD 0
          let s1 : HState n m := { s with branches := rolled, xhat0 := xhat0, uhat0 := uhat0 }
          if r.2.1 then .ok s1
          else
            let bw := hind_backward orcs T mu xhat0 uhat0 rolled
            if bw.2.all (fun b =>
                is_equal (b.xhat.headD 0) xhat0 && is_equal (b.uhat.headD 0) uhat0) then
              iterateHind orcs T x_init mu convg start_alpha fuel iters (some r.1)
                ⟨bw.2, xhat0, uhat0, bw.1.1, bw.1.2⟩
            else .thrown

/-- Warm-start state preparation of the hindsight solver
(`iLQR_hindsight_impl.hh:130-169`): set `xhat0_ = x_init`,
`uhat0_ = u_nominal`; per branch require `Ks.size() > t_offset`, drop the
first `t_offset` entries of the four lists and require the remaining sizes
to match `T` (and `T+1` for `xhat`), while accumulating
`K0_ += p * Ks[0]`, `k0_ += p * ks[0]` over the post-drop lists; finally
copy `K0_, k0_, xhat0_, uhat0_` into every branch's first slot.  `none`
models the `IS_*` throw on a size violation. -/
def warm_init {n m : ℕ} (T t_offset : ℕ) (x_init : Vec n) (u_nominal : Vec m)
    (bs : List (BranchData n m)) : Option (HState n m) :=
  if ∀ b ∈ bs, t_offset < b.Ks.length ∧
      (b.Ks.drop t_offset).length = T ∧ (b.ks.drop t_offset).length = T ∧
      (b.uhat.drop t_offset).length = T ∧ (b.xhat.drop t_offset).length = T + 1 then
    let dropped := bs.map (fun b =>
      ({ b with
         Ks := b.Ks.drop t_offset, ks := b.ks.drop t_offset,
         uhat := b.uhat.drop t_offset, xhat := b.xhat.drop t_offset } : BranchData n m))
    let K0 := dropped.foldl (fun acc b => acc + b.probability • b.Ks.headD 0) 0
    let k0 := dropped.foldl (fun acc b => acc + b.probability • b.ks.headD 0) 0
    let final := dropped.map (fun b =>
      ({ b with
         Ks := K0 :: b.Ks.tail, ks := k0 :: b.ks.tail,
         xhat := x_init :: b.xhat.tail, uhat := u_nominal :: b.uhat.tail } : BranchData n m))
    some ⟨final, x_init, u_nominal, K0, k0⟩
  else none

/-- The constructor check of `iLQRHindsightSolver`
(`iLQR_hindsight_impl.hh:17-25`): the branch list is non-empty and the
probabilities sum to `1` within `10⁻³` (`IS_ALMOST_EQUAL`, modelled from the
spec's "sum to 1 ± 10⁻³" as `|Σp − 1| ≤ 10⁻³`).  Individual branch
probabilities are not inspected here. -/
def hindsight_ctor {n m : ℕ} (bs : List (BranchData n m)) : Bool :=
  decide (0 < bs.length) && decide (|total_branch_probability bs - 1| ≤ 1 / 10 ^ 3)

/-- `iLQRHindsightSolver::set_branch_probability`
(`iLQR_hindsight_impl.hh:401-407`): requires `0 ≤ branch_num < size` and
`probability ∈ [0, 1]`; this is the only place an individual probability is
range-checked. -/
def set_branch_probability {n m : ℕ} (bs : List (BranchData n m))
    (branch_num : ℕ) (p : ℚ) : Option (List (BranchData n m)) :=
  if branch_num < bs.length ∧ 0 ≤ p ∧ p ≤ 1 then
    some (bs.set branch_num { bs.getD branch_num default with probability := p })
  else none

/-- `iLQRHindsightSolver::solve` (`iLQR_hindsight_impl.hh:93-339`).  The
leading checks (`:100-108`) throw unless `T > 1`, `mu ≥ 0`, `max_iters > 0`,
`cost_convg_ratio > 0`, `start_alpha > 0` and the branch probabilities sum
to `1 ± 10⁻³` (the `t_offset ≥ 0` check is vacuous for a natural number).
Cold start (`:112-129`) sets `xhat0_ = 0`, `uhat0_ = u_nominal`,
`K0_ = 0`, `k0_ = 0` and zero-initializes every branch; warm start uses
`warm_init`.  `orcs` carries the branches' callbacks positionally. -/
def solveHind {n m : ℕ} (orcs : List (Oracles n m)) (bs : List (BranchData n m))
    (T : ℕ) (x_init : Vec n) (u_nominal : Vec m) (mu : ℚ) (max_iters : ℕ)
    (convg start_alpha : ℚ) (warm_start : Bool) (t_offset : ℕ) (fuel : ℕ) :
    Res (HState n m) :=
  if 1 < T ∧ 0 ≤ mu ∧ 0 < max_iters ∧ 0 < convg ∧ 0 < start_alpha ∧
      |total_branch_probability bs - 1| ≤ 1 / 10 ^ 3 then
    match (if warm_start then warm_init T t_offset x_init u_nominal bs
           else some ⟨bs.map (fun b =>
                ({ b with
                   Ks := List.replicate T 0, ks := List.replicate T 0,
                   uhat := List.replicate T u_nominal,
                   xhat := List.replicate (T + 1) 0 } : BranchData n m)),
                0, u_nominal, 0, 0⟩) with
    | none => .thrown
    | some s0 => iterateHind orcs T x_init mu convg start_alpha fuel max_iters none s0
  else .thrown

/-- An LQR-tree plan node (`lqr/lqr_tree.cc`, `PlanNode`): fixed linearized
dynamics `(A, B)`, quadratic cost `(Q, R)`, a probability, and children.
The arena/pointer tree of the source is modelled as a rose tree; `K_` and
`V_` are not stored but returned by `tree_backup`. -/
inductive LQRNode (n m : ℕ) where
  | node (A : Mat n n) (B : Mat n m) (Q : Mat n n) (R : Mat m m) (probability : ℚ)
      (children : List (LQRNode n m)) : LQRNode n m

/-- The node's children list. -/
def LQRNode.children {n m : ℕ} : LQRNode n m → List (LQRNode n m)
  | .node _ _ _ _ _ cs => cs

/-- The node's linearized state matrix `dynamics_.A`. -/
def LQRNode.A {n m : ℕ} : LQRNode n m → Mat n n
  | .node A _ _ _ _ _ => A

/-- The node's linearized control matrix `dynamics_.B`. -/
def LQRNode.B {n m : ℕ} : LQRNode n m → Mat n m
  | .node _ B _ _ _ _ => B

/-- The node's state cost matrix `cost_.Q`. -/
def LQRNode.Q {n m : ℕ} : LQRNode n m → Mat n n
  | .node _ _ Q _ _ _ => Q

/-- The node's control cost matrix `cost_.R`. -/
def LQRNode.R {n m : ℕ} : LQRNode n m → Mat m m
  | .node _ _ _ R _ _ => R

/-- The node's `probability_`. -/
def LQRNode.probability {n m : ℕ} : LQRNode n m → ℚ
  | .node _ _ _ _ p _ => p

/-- `LQRTree::compute_control_policy` (`lqr_tree.cc:217-230`):
`K = (R + Bᵀ V_{t+1} B).inverse() * (Bᵀ V_{t+1} A)` followed by `K *= -1`. -/
def compute_control_policy {n m : ℕ} (A : Mat n n) (B : Mat n m) (R : Mat m m)
    (Vt1 : Mat n n) : Mat m n :=
  let inv_cntrl_term := minv (R + Bᵀ * Vt1 * B)
  (-1 : ℚ) • (inv_cntrl_term * (Bᵀ * Vt1 * A))

/-- `LQRTree::compute_value_matrix` (`lqr_tree.cc:199-215`):
`V = Q + Kᵀ R K + (A + BK)ᵀ V_{t+1} (A + BK)`. -/
def compute_value_matrix {n m : ℕ} (A : Mat n n) (B : Mat n m) (Q : Mat n n)
    (R : Mat m m) (K : Mat m n) (Vt1 : Mat n n) : Mat n n :=
  let tmp := A + B * K
  Q + Kᵀ * R * K + tmpᵀ * Vt1 * tmp

/-- `LQRTree::bellman_tree_backup` (`lqr_tree.cc:127-158`), expressed per
node: a leaf computes its policy and value with `ZERO_VALUE_MATRIX_`
(`control_and_value_for_leaves`, `:143-158`), which coincides with the empty
aggregation below; an internal node accumulates
`Vtilde += p_child * V_child` over its children and computes its policy and
value from `Vtilde` (`backup_to_parents`, `:160-197`).  The source processes
the tree level-by-level under its all-leaves-at-equal-depth assertion; for
such trees every node's `(K_, V_)` is exactly this recursion at the node. -/
def tree_backup {n m : ℕ} : LQRNode n m → Mat m n × Mat n n
  | .node A B Q R _ children =>
      let Vtilde : Mat n n :=
        (children.attach.map (fun c => (c.1.probability, (tree_backup c.1).2))).foldl
          (fun acc pv => acc + pv.1 • pv.2) 0
      let K := compute_control_policy A B R Vtilde
      (K, compute_value_matrix A B Q R K Vtilde)
  termination_by t => sizeOf t
  decreasing_by
    simp_wf
    have h := List.sizeOf_lt_of_mem c.2
    omega

/-- Depths of all leaves below a node (the node itself at depth 0). -/
def leafDepths {n m : ℕ} : LQRNode n m → List ℕ
  | .node _ _ _ _ _ [] => [0]
  | .node _ _ _ _ _ children =>
      ((children.attach.map (fun c => leafDepths c.1)).flatten).map (fun d => d + 1)
  termination_by t => sizeOf t
  decreasing_by
    simp_wf
    have h := List.sizeOf_lt_of_mem c.2
    omega

/-- All leaves of the tree sit at one common depth: the shape assumption
`IS_EQUAL(leaf->depth(), FIRST_DEPTH)` that `bellman_tree_backup` enforces
(`lqr_tree.cc:147-152`, `:165-170`). -/
def EqualLeafDepth {n m : ℕ} (t : LQRNode n m) : Prop :=
  ∀ d1 ∈ leafDepths t, ∀ d2 ∈ leafDepths t, d1 = d2

/-- The all-zero callback bundle on a 1-state, 1-control problem: zero
dynamics, identically-zero running and terminal costs, and zero
linearization/quadratization (the exact derivatives of those callbacks).
Used as a concrete test problem. -/
def zeroOrc : Oracles 1 1 where
  dynamics := fun _ _ => 0
  cost := fun _ _ _ => 0
  final_cost := fun _ => 0
  linearize_dynamics := fun _ _ => (0, 0)
  quadratize_cost := fun _ _ _ => ⟨0, 0, 0, 0, 0⟩
  quadratize_final := fun _ => (0, 0)

/-- A concrete 2-state, 1-control callback bundle whose (constant)
linearization and quadratization are `A = [[0,1],[0,0]]`, `B = [[1],[0]]`,
`Q = 0`, `R = [[1]]`, `P = [[1],[0]]`, `g_x = 0`, `g_u = 0`.  These are the
exact derivatives of the linear dynamics `x' = A x + B u` and the quadratic
cost `c(x, u) = ½ uᵀRu + xᵀPu`.  Used to exhibit an asymmetric backed-up
value matrix. -/
def orcC4 : Oracles 2 1 where
  dynamics := fun x u => Matrix.of ![![(0:ℚ), 1], ![0, 0]] * x + Matrix.of ![![(1:ℚ)], ![0]] * u
  cost := fun x u _ => (1 / 2) * (uᵀ * Matrix.of ![![(1:ℚ)]] * u) 0 0
    + (xᵀ * Matrix.of ![![(1:ℚ)], ![0]] * u) 0 0
  final_cost := fun _ => 0
  linearize_dynamics := fun _ _ => (Matrix.of ![![(0:ℚ), 1], ![0, 0]], Matrix.of ![![(1:ℚ)], ![0]])
  quadratize_cost := fun _ _ _ =>
    ⟨0, Matrix.of ![![(1:ℚ)]], Matrix.of ![![(1:ℚ)], ![0]], 0, 0⟩
  quadratize_final := fun _ => (0, 0)

/-- A concrete depth-1 LQR tree: a root with two leaf children of
probabilities `2/5` and `3/5` (all matrices zero, 1-state 1-control).  All
leaves are at depth 1. -/
def treeC7 : LQRNode 1 1 :=
  .node 0 0 0 0 1 [.node 0 0 0 0 (2 / 5) [], .node 0 0 0 0 (3 / 5) []]

/-- Bridge for the single-branch refinement claim (spec section 8,
property 10): the hindsight state that a one-branch, probability-1 solver
holds when it agrees with a single-chain solver state — the same gain and
trajectory lists in the single branch, with the shared first-stage values
read from the chain's slot 0. -/
def toH {n m : ℕ} (s : SChain n m) : HState n m :=
  ⟨[⟨1, s.Ks, s.ks, s.uhat, s.xhat⟩], s.xhat.headD 0, s.uhat.headD 0,
   s.Ks.headD 0, s.ks.headD 0⟩

/-- A concrete two-branch list whose probabilities are `3/2` and `−1/2`:
individually far outside `[0, 1]`, yet summing to exactly `1`. -/
def bsC9 : List (BranchData 1 1) :=
  [⟨3 / 2, [], [], [], []⟩, ⟨-1 / 2, [], [], [], []⟩]

/-- A concrete branch datum used to exercise the warm-start path:
probability 1, three stored time slots (plus the extra `xhat` entry). -/
def bC10 : BranchData 1 1 :=
  ⟨1, [0, 0, 0], [0, 0, 0], [0, 0, 0], [0, 0, 0, 0]⟩

/-! ### General helper lemmas -/

/-- Left-fold accumulation `acc + f a` equals the initial value plus the sum
of the mapped list (the loop-accumulator shape used throughout the source). -/
theorem foldl_add_eq_sum {α M : Type} [AddCommMonoid M] (f : α → M) :
    ∀ (l : List α) (init : M),
      l.foldl (fun acc a => acc + f a) init = init + (l.map f).sum
  | [], init => by simp
  | a :: l, init => by
      simp only [List.foldl_cons, List.map_cons, List.sum_cons]
      rw [foldl_add_eq_sum f l (init + f a), add_assoc]

/-! ### C1: the Bellman backup formulas -/

/-- C1: for every time step `t` and every `mu` (in particular every
`mu ≥ 0`), the backup computes the gains from the LM-inflated matrix
`Ṽ = V_{t+1} + μI` as `K_t = −H⁻¹ (Pᵀ + Bᵀ Ṽ A)` and
`k_t = −H⁻¹ (g_u + Bᵀ g_{t+1}ᵀ)` with `H = R + Bᵀ Ṽ B`, while the
propagated value model `V_t = Q + 2(P K_t) + K_tᵀ R K_t + Mᵀ V_{t+1} M`
(`M = A + B K_t`) and `g_t` are formed from the un-inflated `V_{t+1}`. -/
theorem bellman_backup_matches_spec {n m : ℕ} (orc : Oracles n m) (t : ℕ)
    (mu : ℚ) (xh : Vec n) (uh : Vec m) (Vt1 : Mat n n) (Gt1 : Mat 1 n) :
    let A := (orc.linearize_dynamics xh uh).1
    let B := (orc.linearize_dynamics xh uh).2
    let qc := orc.quadratize_cost t xh uh
    let Vtil := Vt1 + mu • (1 : Mat n n)
    let H := qc.R + Bᵀ * Vtil * B
    let out := bellman_backup orc t mu xh uh Vt1 Gt1
    out.Kt = -(minv H * (qc.Pᵀ + Bᵀ * Vtil * A)) ∧
    out.kt = -(minv H * (qc.g_u + Bᵀ * Gt1ᵀ)) ∧
    out.Vt = qc.Q + (2 : ℚ) • (qc.P * out.Kt) + out.Ktᵀ * qc.R * out.Kt
      + (A + B * out.Kt)ᵀ * Vt1 * (A + B * out.Kt) ∧
    out.Gt = out.ktᵀ * qc.Pᵀ + out.ktᵀ * qc.R * out.Kt + qc.g_xᵀ + qc.g_uᵀ * out.Kt
      + out.ktᵀ * Bᵀ * Vt1 * (A + B * out.Kt) + Gt1 * (A + B * out.Kt) := by
  refine ⟨?_, ?_, rfl, rfl⟩ <;>
    simp only [bellman_backup, Matrix.smul_mul, neg_one_smul, Matrix.neg_mul]

/-! ### C4: no defensive symmetrization of the backed-up value matrix -/

/-- C4 amended: neither backup symmetrizes `V_t`.  The value matrix is
propagated exactly as `Q + 2 (P K_t) + K_tᵀ R K_t + Mᵀ V_{t+1} M`, so even
with symmetric `Q`, `R` and `V_{t+1}` its asymmetry defect
`V_t − V_tᵀ` equals that of the `2 (P K_t)` term, which is nonzero in
general (see the counterexample). -/
theorem backup_value_asymmetry_defect {n m : ℕ} (orc : Oracles n m) (t : ℕ)
    (mu : ℚ) (xh : Vec n) (uh : Vec m) (Vt1 : Mat n n) (Gt1 : Mat 1 n)
    (hQ : (orc.quadratize_cost t xh uh).Qᵀ = (orc.quadratize_cost t xh uh).Q)
    (hR : (orc.quadratize_cost t xh uh).Rᵀ = (orc.quadratize_cost t xh uh).R)
    (hV : Vt1ᵀ = Vt1) :
    (bellman_backup orc t mu xh uh Vt1 Gt1).Vt
        - (bellman_backup orc t mu xh uh Vt1 Gt1).Vtᵀ
      = (2 : ℚ) • ((orc.quadratize_cost t xh uh).P
            * (bellman_backup orc t mu xh uh Vt1 Gt1).Kt)
        - ((2 : ℚ) • ((orc.quadratize_cost t xh uh).P
            * (bellman_backup orc t mu xh uh Vt1 Gt1).Kt))ᵀ := by
  simp only [bellman_backup, Matrix.transpose_add, Matrix.transpose_mul,
    Matrix.transpose_smul, Matrix.transpose_transpose, Matrix.mul_assoc, hQ, hR, hV]
  abel

/-- Witness for `backup_value_asymmetry_defect`: the hypotheses hold at the
concrete `orcC4` problem with `V_{t+1} = I`. -/
theorem backup_value_asymmetry_defect_witness :
    ((orcC4.quadratize_cost 0 0 0).Qᵀ = (orcC4.quadratize_cost 0 0 0).Q) ∧
    ((orcC4.quadratize_cost 0 0 0).Rᵀ = (orcC4.quadratize_cost 0 0 0).R) ∧
    (((1 : Mat 2 2))ᵀ = (1 : Mat 2 2)) ∧
    ((bellman_backup orcC4 0 0 0 0 1 0).Vt
        - (bellman_backup orcC4 0 0 0 0 1 0).Vtᵀ
      = (2 : ℚ) • ((orcC4.quadratize_cost 0 0 0).P
            * (bellman_backup orcC4 0 0 0 0 1 0).Kt)
        - ((2 : ℚ) • ((orcC4.quadratize_cost 0 0 0).P
            * (bellman_backup orcC4 0 0 0 0 1 0).Kt))ᵀ) := by
  have hQ : (orcC4.quadratize_cost 0 0 0).Qᵀ = (orcC4.quadratize_cost 0 0 0).Q := by
    simp [orcC4]
  have hR : (orcC4.quadratize_cost 0 0 0).Rᵀ = (orcC4.quadratize_cost 0 0 0).R := by
    ext i j
    fin_cases i
    fin_cases j
    simp [orcC4]
  have hV : ((1 : Mat 2 2))ᵀ = (1 : Mat 2 2) := Matrix.transpose_one
  exact ⟨hQ, hR, hV, backup_value_asymmetry_defect orcC4 0 0 0 0 1 0 hQ hR hV⟩

/-- C4 counterexample: at the concrete symmetric-input problem `orcC4`
(`Q = 0`, `R = [[1]]`, `V_{t+1} = I`, all symmetric), the value matrix that
the backup produces and propagates is not symmetric: its `(0,1)` entry is
`−1` while its `(1,0)` entry is `0`.  So the claim that every backed-up
`V_t` is symmetrized to `(V + Vᵀ)/2` before propagation is false of the
code. -/
theorem backup_no_symmetrize_cex :
    (bellman_backup orcC4 0 0 0 0 1 0).Vt 0 1
      ≠ (bellman_backup orcC4 0 0 0 0 1 0).Vt 1 0 := by
  have h1 : (bellman_backup orcC4 0 0 0 0 1 0).Vt 0 1 = -1 := by
    simp [bellman_backup, orcC4, minv, Matrix.mul_apply, Matrix.det_fin_one,
      Matrix.adjugate_fin_one, Fin.sum_univ_succ, Matrix.one_apply,
      Matrix.vecMul, Matrix.vecHead, Matrix.vecTail, Matrix.dotProduct]
    norm_num
  have h2 : (bellman_backup orcC4 0 0 0 0 1 0).Vt 1 0 = 0 := by
    simp [bellman_backup, orcC4, minv, Matrix.mul_apply, Matrix.det_fin_one,
      Matrix.adjugate_fin_one, Fin.sum_univ_succ, Matrix.one_apply,
      Matrix.vecMul, Matrix.vecHead, Matrix.vecTail, Matrix.dotProduct]
    norm_num
  rw [h1, h2]
  norm_num

/-! ### C5: no singular-Hessian check -/

/-- C5 amended: the backup contains no invertibility test and no error
path.  When the control Hessian `H = R + Bᵀ (V_{t+1} + μI) B` is singular
the backup still returns normally; under the totalized rational inverse the
gains come out as `K_t = 0`, `k_t = 0` (with IEEE doubles Eigen would
silently produce non-finite entries instead), and no
`SINGULAR_CONTROL_HESSIAN` error exists anywhere in the solver. -/
theorem backup_total_on_singular_hessian {n m : ℕ} (orc : Oracles n m) (t : ℕ)
    (mu : ℚ) (xh : Vec n) (uh : Vec m) (Vt1 : Mat n n) (Gt1 : Mat 1 n)
    (h : ((orc.quadratize_cost t xh uh).R
        + (orc.linearize_dynamics xh uh).2ᵀ * (Vt1 + mu • (1 : Mat n n))
          * (orc.linearize_dynamics xh uh).2).det = 0) :
    (bellman_backup orc t mu xh uh Vt1 Gt1).Kt = 0 ∧
    (bellman_backup orc t mu xh uh Vt1 Gt1).kt = 0 := by
  constructor <;>
    simp [bellman_backup, minv, h]

/-- Witness for `backup_total_on_singular_hessian`: at the all-zero problem
the Hessian is the zero matrix, whose determinant is zero. -/
theorem backup_total_on_singular_hessian_witness :
    (((zeroOrc.quadratize_cost 0 0 0).R
        + (zeroOrc.linearize_dynamics 0 0).2ᵀ * ((0 : Mat 1 1) + (0 : ℚ) • (1 : Mat 1 1))
          * (zeroOrc.linearize_dynamics 0 0).2).det = 0) ∧
    ((bellman_backup zeroOrc 0 0 0 0 0 0).Kt = 0 ∧
     (bellman_backup zeroOrc 0 0 0 0 0 0).kt = 0) := by
  have h : ((zeroOrc.quadratize_cost 0 0 0).R
      + (zeroOrc.linearize_dynamics 0 0).2ᵀ * ((0 : Mat 1 1) + (0 : ℚ) • (1 : Mat 1 1))
        * (zeroOrc.linearize_dynamics 0 0).2).det = 0 := by
    simp [zeroOrc, Matrix.det_fin_one]
  exact ⟨h, backup_total_on_singular_hessian zeroOrc 0 0 0 0 0 0 h⟩

/-- C5 counterexample: a concrete `solve()` call (the all-zero problem,
`T = 1`, one iteration) whose backward pass inverts the singular zero
Hessian, yet the call completes normally (`isOk`) instead of aborting with a
`SINGULAR_CONTROL_HESSIAN` error — no such error path exists in the code. -/
theorem singular_hessian_no_abort_cex :
    (((zeroOrc.quadratize_cost 0 0 0).R
        + (zeroOrc.linearize_dynamics 0 0).2ᵀ
          * ((zeroOrc.quadratize_final 0).1 + (0 : ℚ) • (1 : Mat 1 1))
          * (zeroOrc.linearize_dynamics 0 0).2).det = 0) ∧
    (solveSingle zeroOrc 1 0 0 0 1 1 1 false 0 ⟨[], [], [], []⟩ 1).isOk = true := by
  constructor
  · simp [zeroOrc, Matrix.det_fin_one]
  · norm_num [solveSingle, iterateSingle, line_search, chain_cost, forward_pass_aux,
      acceptB, ratioOkB, zeroOrc, backward_pass, backward_sweep, bellman_backup,
      compute_control_stepsize, Res.isOk]

/-! ### C7: the LQR-tree backup -/

/-- C7: after `bellman_tree_backup` on an LQR tree whose leaves are all at
equal depth, every leaf has `K = 0` and `V = Q`, and every node's results
equal aggregating `Ṽ = Σ_child p_child · V_child` (the empty aggregation,
i.e. the `ZERO_VALUE_MATRIX_`, at a leaf) and then computing
`K = −(R + Bᵀ Ṽ B)⁻¹ (Bᵀ Ṽ A)` and `V = Q + Kᵀ R K + (A+BK)ᵀ Ṽ (A+BK)`. -/
theorem lqr_tree_backup_node_formulas {n m : ℕ} (t : LQRNode n m)
    (h : EqualLeafDepth t) :
    (t.children = [] → (tree_backup t).1 = 0 ∧ (tree_backup t).2 = t.Q) ∧
    ((tree_backup t).1
      = -(minv (t.R + t.Bᵀ
              * (t.children.map (fun c => c.probability • (tree_backup c).2)).sum * t.B)
          * (t.Bᵀ * (t.children.map (fun c => c.probability • (tree_backup c).2)).sum
              * t.A))) ∧
    ((tree_backup t).2
      = t.Q + (tree_backup t).1ᵀ * t.R * (tree_backup t).1
        + (t.A + t.B * (tree_backup t).1)ᵀ
          * (t.children.map (fun c => c.probability • (tree_backup c).2)).sum
          * (t.A + t.B * (tree_backup t).1)) := by
  clear h
  cases t with
  | node A B Q R p cs =>
    have hunf : tree_backup (LQRNode.node A B Q R p cs)
        = (compute_control_policy A B R
             ((cs.map (fun c => c.probability • (tree_backup c).2)).sum),
           compute_value_matrix A B Q R
             (compute_control_policy A B R
               ((cs.map (fun c => c.probability • (tree_backup c).2)).sum))
             ((cs.map (fun c => c.probability • (tree_backup c).2)).sum)) := by
      rw [tree_backup]
      simp only [foldl_add_eq_sum, zero_add, List.map_map]
      rw [show ((fun pv : ℚ × Mat n n => pv.1 • pv.2)
            ∘ (fun c : {x // x ∈ cs} => (c.1.probability, (tree_backup c.1).2)))
          = fun c : {x // x ∈ cs} => c.1.probability • (tree_backup c.1).2 from rfl]
      rw [List.attach_map_coe cs (fun c => c.probability • (tree_backup c).2)]
    refine ⟨?_, ?_, ?_⟩
    · intro hcs
      simp only [LQRNode.children] at hcs
      subst hcs
      refine ⟨?_, ?_⟩
      · simp [hunf, compute_control_policy]
      · simp [hunf, compute_control_policy, compute_value_matrix, LQRNode.Q]
    · simp only [hunf, LQRNode.children, LQRNode.A, LQRNode.B, LQRNode.R,
        compute_control_policy, neg_one_smul]
    · simp only [hunf, LQRNode.children, LQRNode.A, LQRNode.B, LQRNode.R, LQRNode.Q,
        compute_value_matrix]

/-- Witness for `lqr_tree_backup_node_formulas`: the concrete depth-1 tree
`treeC7` has all leaves at equal depth and satisfies the backup formulas. -/
theorem lqr_tree_backup_node_formulas_witness :
    EqualLeafDepth treeC7 ∧
    ((treeC7.children = [] → (tree_backup treeC7).1 = 0 ∧ (tree_backup treeC7).2 = treeC7.Q) ∧
    ((tree_backup treeC7).1
      = -(minv (treeC7.R + treeC7.Bᵀ
              * (treeC7.children.map (fun c => c.probability • (tree_backup c).2)).sum
              * treeC7.B)
          * (treeC7.Bᵀ
              * (treeC7.children.map (fun c => c.probability • (tree_backup c).2)).sum
              * treeC7.A))) ∧
    ((tree_backup treeC7).2
      = treeC7.Q + (tree_backup treeC7).1ᵀ * treeC7.R * (tree_backup treeC7).1
        + (treeC7.A + treeC7.B * (tree_backup treeC7).1)ᵀ
          * (treeC7.children.map (fun c => c.probability • (tree_backup c).2)).sum
          * (treeC7.A + treeC7.B * (tree_backup treeC7).1))) := by
  have h1 : leafDepths (LQRNode.node 0 0 0 0 (2 / 5) [] : LQRNode 1 1) = [0] := by
    rw [leafDepths]
  have h2 : leafDepths (LQRNode.node 0 0 0 0 (3 / 5) [] : LQRNode 1 1) = [0] := by
    rw [leafDepths]
  have hd : leafDepths treeC7 = [1, 1] := by
    rw [treeC7, leafDepths]
    · rw [List.attach_map_coe _ (fun c => leafDepths c)]
      simp [h1, h2]
    · simp
  have h : EqualLeafDepth treeC7 := by
    intro d1 h1 d2 h2
    rw [hd] at h1 h2
    simp only [List.mem_cons, List.not_mem_nil, or_false] at h1 h2
    omega
  exact ⟨h, lqr_tree_backup_node_formulas treeC7 h⟩

/-! ### C2: the hindsight backward pass and shared merge -/

/-- Transpose of a list sum of matrices, elementwise. -/
theorem list_sum_transpose {α : Type} {p q : ℕ} (l : List α) (f : α → Mat p q) :
    ((l.map f).sum)ᵀ = (l.map (fun x => (f x)ᵀ)).sum := by
  induction l with
  | nil => simp
  | cons a l ih => simp [ih]

/-- Each merge accumulator equals its probability-weighted sum over the
processed branch list (the loop of `iLQR_hindsight_impl.hh:290-318` as a
closed form). -/
theorem merge_fold_fields {n m : ℕ} (mu : ℚ) (xhat0 : Vec n) (uhat0 : Vec m) :
    ∀ (l : List (Oracles n m × BranchData n m × Mat n n × Mat 1 n))
      (acc : MergeAcc n m),
      l.foldl (merge_step mu xhat0 uhat0) acc
        = ⟨acc.weighted_inv_term + (l.map (fun e => e.2.1.probability •
              ((e.1.linearize_dynamics xhat0 uhat0).2ᵀ * (e.2.2.1 + mu • (1 : Mat n n))
                * (e.1.linearize_dynamics xhat0 uhat0).2))).sum,
           acc.weighted_Kt_term + (l.map (fun e => e.2.1.probability •
              ((e.1.linearize_dynamics xhat0 uhat0).2ᵀ * (e.2.2.1 + mu • (1 : Mat n n))
                * (e.1.linearize_dynamics xhat0 uhat0).1))).sum,
           acc.weighted_kt_term + (l.map (fun e => e.2.1.probability •
              ((e.1.linearize_dynamics xhat0 uhat0).2ᵀ * e.2.2.2ᵀ))).sum,
           acc.wQ + (l.map (fun e => e.2.1.probability
              • (e.1.quadratize_cost 0 xhat0 uhat0).Q)).sum,
           acc.wR + (l.map (fun e => e.2.1.probability
              • (e.1.quadratize_cost 0 xhat0 uhat0).R)).sum,
           acc.wP + (l.map (fun e => e.2.1.probability
              • (e.1.quadratize_cost 0 xhat0 uhat0).P)).sum,
           acc.wg_x + (l.map (fun e => e.2.1.probability
              • (e.1.quadratize_cost 0 xhat0 uhat0).g_x)).sum,
           acc.wg_u + (l.map (fun e => e.2.1.probability
              • (e.1.quadratize_cost 0 xhat0 uhat0).g_u)).sum⟩
  | [], acc => by simp
  | e :: l, acc => by
      rw [List.foldl_cons, merge_fold_fields mu xhat0 uhat0 l (merge_step mu xhat0 uhat0 acc e)]
      simp [merge_step, add_assoc]

/-- C2: in the hindsight backward pass each branch is swept per the
section-4.2 backup only from `t = T-1` down to `t = 1` (seeded by the
terminal quadratization at `xhat.back()`, producing the boundary pair
`(V_1^b, g_1^b)`), and the shared `t = 0` gains computed from the merge
accumulators at the shared linearization point `(xhat0, uhat0)` equal
`K_0 = −H̄⁻¹ M̄` and `k_0 = −H̄⁻¹ m̄`, where
`H̄ = Σ_b p_b [R^b + B^bᵀ (V_1^b + μI) B^b]`,
`M̄ = Σ_b p_b [P^bᵀ + B^bᵀ (V_1^b + μI) A^b]`,
`m̄ = Σ_b p_b [B^bᵀ (g_1^b)ᵀ + g_u^b]`. -/
theorem hindsight_backward_merge_spec {n m : ℕ} (mu : ℚ) (xhat0 : Vec n)
    (uhat0 : Vec m) (l : List (Oracles n m × BranchData n m × Mat n n × Mat 1 n))
    (orc : Oracles n m) (b : BranchData n m) (T : ℕ) :
    let LM : Mat n n := mu • (1 : Mat n n)
    let qc := fun (e : Oracles n m × BranchData n m × Mat n n × Mat 1 n) =>
      e.1.quadratize_cost 0 xhat0 uhat0
    let Bof := fun (e : Oracles n m × BranchData n m × Mat n n × Mat 1 n) =>
      (e.1.linearize_dynamics xhat0 uhat0).2
    let Aof := fun (e : Oracles n m × BranchData n m × Mat n n × Mat 1 n) =>
      (e.1.linearize_dynamics xhat0 uhat0).1
    let Hbar := (l.map (fun e => e.2.1.probability •
      ((qc e).R + (Bof e)ᵀ * (e.2.2.1 + LM) * Bof e))).sum
    let Mbar := (l.map (fun e => e.2.1.probability •
      ((qc e).Pᵀ + (Bof e)ᵀ * (e.2.2.1 + LM) * Aof e))).sum
    let mbar := (l.map (fun e => e.2.1.probability •
      ((Bof e)ᵀ * e.2.2.2ᵀ + (qc e).g_u))).sum
    let acc := merge_fold mu xhat0 uhat0 l
    (branch_sweep orc mu T b
      = backward_sweep orc mu b.xhat b.uhat 1 (T - 1)
          (orc.quadratize_final (b.xhat.getD T 0)).1
          (orc.quadratize_final (b.xhat.getD T 0)).2ᵀ) ∧
    ((-1 : ℚ) • minv (acc.wR + acc.weighted_inv_term))
        * (acc.wPᵀ + acc.weighted_Kt_term)
      = -(minv Hbar * Mbar) ∧
    ((-1 : ℚ) • minv (acc.wR + acc.weighted_inv_term))
        * (acc.wg_u + acc.weighted_kt_term)
      = -(minv Hbar * mbar) := by
  intro LM qc Bof Aof Hbar Mbar mbar acc
  have hacc : acc = merge_fold mu xhat0 uhat0 l := rfl
  rw [merge_fold, merge_fold_fields mu xhat0 uhat0 l ⟨0, 0, 0, 0, 0, 0, 0, 0⟩] at hacc
  have hH : acc.wR + acc.weighted_inv_term = Hbar := by
    rw [hacc]
    unfold_let Hbar qc Bof LM
    simp only [smul_add, List.sum_map_add, zero_add]
  have hM : acc.wPᵀ + acc.weighted_Kt_term = Mbar := by
    rw [hacc]
    unfold_let Mbar qc Bof Aof LM
    simp only [smul_add, List.sum_map_add, zero_add, list_sum_transpose,
      Matrix.transpose_smul]
  have hm : acc.wg_u + acc.weighted_kt_term = mbar := by
    rw [hacc]
    unfold_let mbar qc Bof
    simp only [smul_add, List.sum_map_add, zero_add]
    exact add_comm _ _
  refine ⟨rfl, ?_, ?_⟩
  · rw [hH, hM]
    simp only [Matrix.smul_mul, neg_one_smul, Matrix.neg_mul]
  · rw [hH, hm]
    simp only [Matrix.smul_mul, neg_one_smul, Matrix.neg_mul]

/-! ### C10: warm-start initialization of the hindsight solver -/

/-- C10: with `warm_start = true` and size-valid branches, the hindsight
warm-start preparation drops the first `t_offset` entries of each branch's
`(K, k, uhat, xhat)`, re-derives the shared first-stage gains as the
probability-weighted averages of the branches' retained slot-0 gains,
sets the shared `xhat0 = x_init` and `uhat0 = u_nominal`, and copies the
four shared values into slot 0 of every branch. -/
theorem warm_start_init_spec {n m : ℕ} (T t_offset : ℕ) (x_init : Vec n)
    (u_nominal : Vec m) (bs : List (BranchData n m))
    (hsz : ∀ b ∈ bs, t_offset < b.Ks.length ∧
      (b.Ks.drop t_offset).length = T ∧ (b.ks.drop t_offset).length = T ∧
      (b.uhat.drop t_offset).length = T ∧ (b.xhat.drop t_offset).length = T + 1) :
    ∃ s, warm_init T t_offset x_init u_nominal bs = some s ∧
      s.K0 = (bs.map (fun b => b.probability • (b.Ks.drop t_offset).headD 0)).sum ∧
      s.k0 = (bs.map (fun b => b.probability • (b.ks.drop t_offset).headD 0)).sum ∧
      s.xhat0 = x_init ∧ s.uhat0 = u_nominal ∧
      s.branches = bs.map (fun b =>
        ({ probability := b.probability,
           Ks := s.K0 :: (b.Ks.drop t_offset).tail,
           ks := s.k0 :: (b.ks.drop t_offset).tail,
           uhat := u_nominal :: (b.uhat.drop t_offset).tail,
           xhat := x_init :: (b.xhat.drop t_offset).tail } : BranchData n m)) := by
  rw [warm_init, if_pos hsz]
  refine ⟨_, rfl, ?_, ?_, rfl, rfl, ?_⟩
  · simp only [foldl_add_eq_sum, zero_add, List.map_map]
    rfl
  · simp only [foldl_add_eq_sum, zero_add, List.map_map]
    rfl
  · simp only [List.map_map]
    rfl

/-- Witness for `warm_start_init_spec`: the size hypotheses hold for the
concrete branch `bC10` with `T = 2` and `t_offset = 1`. -/
theorem warm_start_init_spec_witness :
    (∀ b ∈ [bC10], 1 < b.Ks.length ∧
      (b.Ks.drop 1).length = 2 ∧ (b.ks.drop 1).length = 2 ∧
      (b.uhat.drop 1).length = 2 ∧ (b.xhat.drop 1).length = 2 + 1) ∧
    (∃ s, warm_init 2 1 (0 : Vec 1) (0 : Vec 1) [bC10] = some s ∧
      s.K0 = ([bC10].map (fun b => b.probability • (b.Ks.drop 1).headD 0)).sum ∧
      s.k0 = ([bC10].map (fun b => b.probability • (b.ks.drop 1).headD 0)).sum ∧
      s.xhat0 = 0 ∧ s.uhat0 = 0 ∧
      s.branches = [bC10].map (fun b =>
        ({ probability := b.probability,
           Ks := s.K0 :: (b.Ks.drop 1).tail,
           ks := s.k0 :: (b.ks.drop 1).tail,
           uhat := 0 :: (b.uhat.drop 1).tail,
           xhat := 0 :: (b.xhat.drop 1).tail } : BranchData 1 1))) := by
  have hsz : ∀ b ∈ [bC10], 1 < b.Ks.length ∧
      (b.Ks.drop 1).length = 2 ∧ (b.ks.drop 1).length = 2 ∧
      (b.uhat.drop 1).length = 2 ∧ (b.xhat.drop 1).length = 2 + 1 := by
    intro b hb
    simp only [List.mem_singleton] at hb
    subst hb
    refine ⟨?_, ?_, ?_, ?_, ?_⟩ <;> simp [bC10]
  exact ⟨hsz, warm_start_init_spec 2 1 0 0 [bC10] hsz⟩

/-! ### C3 and C9 machinery: the first-slot invariant -/

/-- Membership in a zip projects to membership on the right. -/
theorem mem_zip_right {α β : Type} : ∀ {l1 : List α} {l2 : List β} {p : α × β},
    p ∈ l1.zip l2 → p.2 ∈ l2
  | _ :: l1, _ :: l2, p, h => by
      rcases List.mem_cons.1 h with h | h
      · subst h; exact List.mem_cons_self _ _
      · exact List.mem_cons_of_mem _ (mem_zip_right h)
  | [], _, _, h => by simp at h
  | _ :: _, [], _, h => by simp at h

/-- The state list of any forward rollout starts with the initial state and
is never empty. -/
theorem forward_pass_aux_states_head {n m : ℕ} (orc : Oracles n m)
    (Ks : List (Mat m n)) (ks uhs : List (Vec m)) (xhs : List (Vec n))
    (x : Vec n) (t : ℕ) (a : ℚ) (d : Vec n) :
    (forward_pass_aux orc Ks ks uhs xhs x t a).1.headD d = x ∧
    (forward_pass_aux orc Ks ks uhs xhs x t a).1 ≠ [] := by
  cases Ks <;> cases ks <;> cases uhs <;> cases xhs <;> simp [forward_pass_aux]

/-- With non-empty state lists, the rollout control list starts with the
affine control computed from the four head entries. -/
theorem forward_pass_aux_controls_head {n m : ℕ} (orc : Oracles n m)
    (K : Mat m n) (Ks : List (Mat m n)) (k : Vec m) (ks : List (Vec m))
    (uh : Vec m) (uhs : List (Vec m)) (xh : Vec n) (xhs : List (Vec n))
    (x : Vec n) (t : ℕ) (a : ℚ) :
    (forward_pass_aux orc (K :: Ks) (k :: ks) (uh :: uhs) (xh :: xhs) x t a).2.1
      = compute_control_stepsize K k xh uh x a
        :: (forward_pass_aux orc Ks ks uhs xhs
             (orc.dynamics x (compute_control_stepsize K k xh uh x a)) (t + 1) a).2.1 := by
  simp [forward_pass_aux]

/-- Approximate equality is reflexive. -/
theorem is_equal_self {n m : ℕ} (a : Mat n m) : is_equal a a = true := by
  simp only [is_equal, decide_eq_true_eq]
  intro i j
  rw [sub_self, abs_zero]
  norm_num

/-- Invariant preservation through the hindsight iteration loop: when every
branch has non-empty lists whose first slots agree with the shared
`K0, k0, xhat0, uhat0`, the loop never trips its first-slot assertions
(never returns `thrown`), and the same agreement holds of any normal
result. -/
theorem iterateHind_inv {n m : ℕ} (orcs : List (Oracles n m)) (T : ℕ)
    (x_init : Vec n) (mu convg start_alpha : ℚ) (fuel : ℕ) :
    ∀ (iters : ℕ) (old : Option ℚ) (s : HState n m),
      (∀ b ∈ s.branches, (b.Ks ≠ [] ∧ b.ks ≠ [] ∧ b.uhat ≠ [] ∧ b.xhat ≠ []) ∧
        b.Ks.headD 0 = s.K0 ∧ b.ks.headD 0 = s.k0 ∧
        b.xhat.headD 0 = s.xhat0 ∧ b.uhat.headD 0 = s.uhat0) →
      iterateHind orcs T x_init mu convg start_alpha fuel iters old s ≠ Res.thrown ∧
      Res.all (fun s2 => ∀ b ∈ s2.branches,
          (b.Ks ≠ [] ∧ b.ks ≠ [] ∧ b.uhat ≠ [] ∧ b.xhat ≠ []) ∧
          b.Ks.headD 0 = s2.K0 ∧ b.ks.headD 0 = s2.k0 ∧
          b.xhat.headD 0 = s2.xhat0 ∧ b.uhat.headD 0 = s2.uhat0)
        (iterateHind orcs T x_init mu convg start_alpha fuel iters old s)
  | 0, old, s, hInv => by
      refine ⟨by simp [iterateHind], ?_⟩
      simpa [iterateHind, Res.all] using hInv
  | iters + 1, old, s, hInv => by
      have hroll : ∀ (alpha : ℚ), ∀ b ∈ hind_roll orcs x_init alpha s.branches,
          (b.Ks ≠ [] ∧ b.ks ≠ [] ∧ b.uhat ≠ [] ∧ b.xhat ≠ []) ∧
          b.Ks.headD 0 = s.K0 ∧ b.ks.headD 0 = s.k0 ∧
          b.xhat.headD 0 = x_init ∧
          b.uhat.headD 0
            = compute_control_stepsize s.K0 s.k0 s.xhat0 s.uhat0 x_init alpha := by
        intro alpha b hb
        rw [hind_roll, List.mem_map] at hb
        obtain ⟨ob, hob, rfl⟩ := hb
        obtain ⟨⟨hK, hk, hu, hx⟩, hK0, hk0, hx0, hu0⟩ := hInv ob.2 (mem_zip_right hob)
        obtain ⟨K, Ks', hKs⟩ := List.exists_cons_of_ne_nil hK
        obtain ⟨kk, ks', hks⟩ := List.exists_cons_of_ne_nil hk
        obtain ⟨uu, us', hus⟩ := List.exists_cons_of_ne_nil hu
        obtain ⟨xx, xs', hxs⟩ := List.exists_cons_of_ne_nil hx
        rw [hKs] at hK0
        rw [hks] at hk0
        rw [hxs] at hx0
        rw [hus] at hu0
        simp only [List.headD_cons] at hK0 hk0 hx0 hu0
        subst hK0 hk0 hx0 hu0
        refine ⟨⟨hK, hk, ?_, ?_⟩, ?_, ?_, ?_, ?_⟩
        · show (branch_fp ob.1 ob.2 x_init alpha).2.1 ≠ []
          rw [branch_fp, hKs, hks, hus, hxs, forward_pass_aux_controls_head]
          simp
        · show (branch_fp ob.1 ob.2 x_init alpha).1 ≠ []
          exact (forward_pass_aux_states_head ob.1 _ _ _ _ _ _ _ 0).2
        · exact hKs ▸ rfl
        · exact hks ▸ rfl
        · show (branch_fp ob.1 ob.2 x_init alpha).1.headD 0 = x_init
          exact (forward_pass_aux_states_head ob.1 _ _ _ _ _ _ _ 0).1
        · show (branch_fp ob.1 ob.2 x_init alpha).2.1.headD 0 = _
          rw [branch_fp, hKs, hks, hus, hxs, forward_pass_aux_controls_head]
          simp
      rcases hls : line_search (hind_cost orcs s.branches x_init) convg fuel
          old start_alpha with _ | r
      · refine ⟨?_, ?_⟩ <;> simp [iterateHind, hls, Res.all]
      · have hX0 : ∀ b ∈ hind_roll orcs x_init r.2.2 s.branches,
            b.xhat.headD 0
              = ((hind_roll orcs x_init r.2.2 s.branches).headD default).xhat.headD 0 ∧
            b.uhat.headD 0
              = ((hind_roll orcs x_init r.2.2 s.branches).headD default).uhat.headD 0 := by
          intro b hb
          rcases hr : hind_roll orcs x_init r.2.2 s.branches with _ | ⟨b1, rest⟩
          · rw [hr] at hb
            simp at hb
          · have hb1 : b1 ∈ hind_roll orcs x_init r.2.2 s.branches := by
              rw [hr]
              exact List.mem_cons_self _ _
            simp only [List.headD_cons]
            constructor
            · rw [(hroll _ b hb).2.2.2.1, (hroll _ b1 hb1).2.2.2.1]
            · rw [(hroll _ b hb).2.2.2.2, (hroll _ b1 hb1).2.2.2.2]
        have hred : iterateHind orcs T x_init mu convg start_alpha fuel (iters + 1) old s
            = (if r.2.1 then
                Res.ok ⟨hind_roll orcs x_init r.2.2 s.branches,
                  ((hind_roll orcs x_init r.2.2 s.branches).headD default).xhat.headD 0,
                  ((hind_roll orcs x_init r.2.2 s.branches).headD default).uhat.headD 0,
                  s.K0, s.k0⟩
               else
                if (hind_backward orcs T mu
                      (((hind_roll orcs x_init r.2.2 s.branches).headD default).xhat.headD 0)
                      (((hind_roll orcs x_init r.2.2 s.branches).headD default).uhat.headD 0)
                      (hind_roll orcs x_init r.2.2 s.branches)).2.all (fun b =>
                    is_equal (b.xhat.headD 0)
                        (((hind_roll orcs x_init r.2.2 s.branches).headD default).xhat.headD 0)
                      && is_equal (b.uhat.headD 0)
                        (((hind_roll orcs x_init r.2.2 s.branches).headD default).uhat.headD 0)) then
                  iterateHind orcs T x_init mu convg start_alpha fuel iters (some r.1)
                    ⟨(hind_backward orcs T mu
                        (((hind_roll orcs x_init r.2.2 s.branches).headD default).xhat.headD 0)
                        (((hind_roll orcs x_init r.2.2 s.branches).headD default).uhat.headD 0)
                        (hind_roll orcs x_init r.2.2 s.branches)).2,
                      ((hind_roll orcs x_init r.2.2 s.branches).headD default).xhat.headD 0,
                      ((hind_roll orcs x_init r.2.2 s.branches).headD default).uhat.headD 0,
                      (hind_backward orcs T mu
                        (((hind_roll orcs x_init r.2.2 s.branches).headD default).xhat.headD 0)
                        (((hind_roll orcs x_init r.2.2 s.branches).headD default).uhat.headD 0)
                        (hind_roll orcs x_init r.2.2 s.branches)).1.1,
                      (hind_backward orcs T mu
                        (((hind_roll orcs x_init r.2.2 s.branches).headD default).xhat.headD 0)
                        (((hind_roll orcs x_init r.2.2 s.branches).headD default).uhat.headD 0)
                        (hind_roll orcs x_init r.2.2 s.branches)).1.2⟩
                else Res.thrown) := by
          simp only [iterateHind, hls]
        rcases hrk : r.2.1 with _ | _
        · -- the convergence break is not taken this iteration
          rw [hred, hrk]
          simp only [Bool.false_eq_true, if_false]
          have hbw : ∀ b ∈ (hind_backward orcs T mu
                (((hind_roll orcs x_init r.2.2 s.branches).headD default).xhat.headD 0)
                (((hind_roll orcs x_init r.2.2 s.branches).headD default).uhat.headD 0)
                (hind_roll orcs x_init r.2.2 s.branches)).2,
              (b.Ks ≠ [] ∧ b.ks ≠ [] ∧ b.uhat ≠ [] ∧ b.xhat ≠ []) ∧
              b.Ks.headD 0 = (hind_backward orcs T mu
                (((hind_roll orcs x_init r.2.2 s.branches).headD default).xhat.headD 0)
                (((hind_roll orcs x_init r.2.2 s.branches).headD default).uhat.headD 0)
                (hind_roll orcs x_init r.2.2 s.branches)).1.1 ∧
              b.ks.headD 0 = (hind_backward orcs T mu
                (((hind_roll orcs x_init r.2.2 s.branches).headD default).xhat.headD 0)
                (((hind_roll orcs x_init r.2.2 s.branches).headD default).uhat.headD 0)
                (hind_roll orcs x_init r.2.2 s.branches)).1.2 ∧
              b.xhat.headD 0
                = ((hind_roll orcs x_init r.2.2 s.branches).headD default).xhat.headD 0 ∧
              b.uhat.headD 0
                = ((hind_roll orcs x_init r.2.2 s.branches).headD default).uhat.headD 0 := by
            intro b hb
            simp only [hind_backward, List.mem_map] at hb
            obtain ⟨ob, hob, rfl⟩ := hb
            have hmem : ob.2 ∈ hind_roll orcs x_init r.2.2 s.branches := mem_zip_right hob
            refine ⟨⟨by simp, by simp, (hroll _ ob.2 hmem).1.2.2.1,
              (hroll _ ob.2 hmem).1.2.2.2⟩, ?_, ?_, ?_, ?_⟩
            · simp [hind_backward]
            · simp [hind_backward]
            · exact (hX0 ob.2 hmem).1
            · exact (hX0 ob.2 hmem).2
          have hall : ((hind_backward orcs T mu
                (((hind_roll orcs x_init r.2.2 s.branches).headD default).xhat.headD 0)
                (((hind_roll orcs x_init r.2.2 s.branches).headD default).uhat.headD 0)
                (hind_roll orcs x_init r.2.2 s.branches)).2.all (fun b =>
              is_equal (b.xhat.headD 0)
                  (((hind_roll orcs x_init r.2.2 s.branches).headD default).xhat.headD 0)
                && is_equal (b.uhat.headD 0)
                  (((hind_roll orcs x_init r.2.2 s.branches).headD default).uhat.headD 0)))
              = true := by
            rw [List.all_eq_true]
            intro b hb
            rw [Bool.and_eq_true]
            constructor
            · rw [(hbw b hb).2.2.2.1]
              exact is_equal_self _
            · rw [(hbw b hb).2.2.2.2]
              exact is_equal_self _
          rw [hall]
          simp only [if_true]
          exact iterateHind_inv orcs T x_init mu convg start_alpha fuel iters (some r.1)
            _ (fun b hb => hbw b hb)
        · -- the convergence break is taken: the committed rollout is returned
          rw [hred, hrk]
          simp only [if_true]
          refine ⟨by simp, ?_⟩
          simp only [Res.all]
          intro b hb
          refine ⟨(hroll _ b hb).1, (hroll _ b hb).2.1, (hroll _ b hb).2.2.1,
            (hX0 b hb).1, (hX0 b hb).2⟩

/-- Weakening of `Res.all`. -/
theorem Res.all_imp {σ : Type} {P Q : σ → Prop} (h : ∀ s, P s → Q s) :
    ∀ {r : Res σ}, Res.all P r → Res.all Q r
  | .thrown, _ => trivial
  | .fuelOut, _ => trivial
  | .ok s, hp => h s hp

/-- The cold-start hindsight branches satisfy the first-slot invariant
against the cold-start shared values `K0 = 0`, `k0 = 0`, `xhat0 = 0`,
`uhat0 = u_nominal`. -/
theorem hind_cold_inv {n m : ℕ} (bs : List (BranchData n m)) (T : ℕ)
    (u_nominal : Vec m) (hT : 0 < T) :
    ∀ b ∈ bs.map (fun b =>
        ({ b with
           Ks := List.replicate T 0, ks := List.replicate T 0,
           uhat := List.replicate T u_nominal,
           xhat := List.replicate (T + 1) 0 } : BranchData n m)),
      (b.Ks ≠ [] ∧ b.ks ≠ [] ∧ b.uhat ≠ [] ∧ b.xhat ≠ []) ∧
      b.Ks.headD 0 = (0 : Mat m n) ∧ b.ks.headD 0 = (0 : Vec m) ∧
      b.xhat.headD 0 = (0 : Vec n) ∧ b.uhat.headD 0 = u_nominal := by
  intro b hb
  rw [List.mem_map] at hb
  obtain ⟨b0, _, rfl⟩ := hb
  cases T with
  | zero => omega
  | succ T' =>
      refine ⟨⟨?_, ?_, ?_, ?_⟩, ?_, ?_, ?_, ?_⟩ <;> simp [List.replicate_succ]

/-- A successful hindsight warm start satisfies the first-slot invariant. -/
theorem warm_init_inv {n m : ℕ} (T t_offset : ℕ) (x_init : Vec n)
    (u_nominal : Vec m) (bs : List (BranchData n m)) (s : HState n m)
    (hw : warm_init T t_offset x_init u_nominal bs = some s) :
    ∀ b ∈ s.branches, (b.Ks ≠ [] ∧ b.ks ≠ [] ∧ b.uhat ≠ [] ∧ b.xhat ≠ []) ∧
      b.Ks.headD 0 = s.K0 ∧ b.ks.headD 0 = s.k0 ∧
      b.xhat.headD 0 = s.xhat0 ∧ b.uhat.headD 0 = s.uhat0 := by
  rw [warm_init] at hw
  split at hw
  · injection hw with hw
    subst hw
    intro b hb
    rw [List.mem_map] at hb
    obtain ⟨b0, _, rfl⟩ := hb
    exact ⟨⟨by simp, by simp, by simp, by simp⟩, rfl, rfl, rfl, rfl⟩
  · cases hw

/-! ### C3: hindsight first-slot agreement after every iteration -/

/-- C3: after every outer iteration of the hindsight `solve` (formally: for
every iteration budget `max_iters`, of which the returned state is the
state at some outer-iteration boundary), every branch's first-slot data
equal the shared values: `branch.K_0 = K0_`, `branch.k_0 = k0_`,
`branch.xhat_0 = xhat0_`, `branch.uhat_0 = uhat0_` — here with exact
rational equality, stronger than the spec's `10⁻¹²` tolerance.  Moreover
the implementation asserts (`IS_TRUE(math::is_equal(...))`,
`iLQR_hindsight_impl.hh:329-331`) rather than merely assumes the
post-line-search agreement at `t = 0`: the assertion is part of the
embedded `iterateHind`, whose `thrown` branch this invariant (see
`iterateHind_inv`) proves unreachable. -/
theorem hindsight_first_slot_invariant {n m : ℕ} (orcs : List (Oracles n m))
    (bs : List (BranchData n m)) (T : ℕ) (x_init : Vec n) (u_nominal : Vec m)
    (mu : ℚ) (max_iters : ℕ) (convg start_alpha : ℚ) (warm_start : Bool)
    (t_offset fuel : ℕ) :
    Res.all (fun s => ∀ b ∈ s.branches,
        b.Ks.headD 0 = s.K0 ∧ b.ks.headD 0 = s.k0 ∧
        b.xhat.headD 0 = s.xhat0 ∧ b.uhat.headD 0 = s.uhat0)
      (solveHind orcs bs T x_init u_nominal mu max_iters convg start_alpha
        warm_start t_offset fuel) := by
  rw [solveHind]
  split
  case isTrue hc =>
    rcases hini : (if warm_start then warm_init T t_offset x_init u_nominal bs
        else some ⟨bs.map (fun b =>
            ({ b with
               Ks := List.replicate T 0, ks := List.replicate T 0,
               uhat := List.replicate T u_nominal,
               xhat := List.replicate (T + 1) 0 } : BranchData n m)),
            0, u_nominal, 0, 0⟩) with _ | s0
    · rw [hini]
      exact trivial
    · rw [hini]
      have hInv : ∀ b ∈ s0.branches,
          (b.Ks ≠ [] ∧ b.ks ≠ [] ∧ b.uhat ≠ [] ∧ b.xhat ≠ []) ∧
          b.Ks.headD 0 = s0.K0 ∧ b.ks.headD 0 = s0.k0 ∧
          b.xhat.headD 0 = s0.xhat0 ∧ b.uhat.headD 0 = s0.uhat0 := by
        cases warm_start with
        | true =>
            rw [if_pos rfl] at hini
            exact warm_init_inv T t_offset x_init u_nominal bs s0 hini
        | false =>
            rw [if_neg (by simp)] at hini
            injection hini with hini
            subst hini
            exact hind_cold_inv bs T u_nominal (by omega)
      exact Res.all_imp (fun s2 h2 b hb => (h2 b hb).2)
        (iterateHind_inv orcs T x_init mu convg start_alpha fuel max_iters none s0 hInv).2
  case isFalse hc => exact trivial

/-! ### C9: boundary precondition checks -/

/-- The single-chain iteration loop has no abort path at all. -/
theorem iterateSingle_ne_thrown {n m : ℕ} (orc : Oracles n m) (T : ℕ)
    (x_init : Vec n) (mu convg start_alpha : ℚ) (fuel : ℕ) :
    ∀ (iters : ℕ) (old : Option ℚ) (s : SChain n m),
      iterateSingle orc T x_init mu convg start_alpha fuel iters old s ≠ Res.thrown
  | 0, old, s => by simp [iterateSingle]
  | iters + 1, old, s => by
      rw [iterateSingle]
      rcases line_search (chain_cost orc s x_init) convg fuel old start_alpha with _ | r
      · simp
      · simp only []
        split
        · simp
        · exact iterateSingle_ne_thrown orc T x_init mu convg start_alpha fuel iters _ _

/-- C9 amended: every boundary precondition listed is checked and fails
fast before any iteration runs — the single-chain `solve` throws exactly
when `T ≤ 0 ∨ mu < 0 ∨ max_iters ≤ 0 ∨ cost_convg_ratio ≤ 0 ∨
start_alpha ≤ 0`; the constructor rejects exactly an empty branch list or
probabilities not summing to `1 ± 10⁻³`; the hindsight `solve` throws
exactly when `T ≤ 1` or one of the shared parameter bounds or the
probability-sum check fails — but an individual branch probability outside
`[0, 1]` is NOT rejected by the constructor or by `solve`; it is checked
only in `set_branch_probability`. -/
theorem boundary_precondition_characterization {n m : ℕ} (orc : Oracles n m)
    (orcs : List (Oracles n m)) (bs : List (BranchData n m)) (T : ℕ)
    (x_init : Vec n) (u_nominal : Vec m) (mu : ℚ) (max_iters : ℕ)
    (convg start_alpha : ℚ) (s_prev : SChain n m) (fuel : ℕ)
    (branch_num : ℕ) (p : ℚ) :
    (solveSingle orc T x_init u_nominal mu max_iters convg start_alpha
        false 0 s_prev fuel = Res.thrown
      ↔ ¬ (0 < T ∧ 0 ≤ mu ∧ 0 < max_iters ∧ 0 < convg ∧ 0 < start_alpha)) ∧
    (hindsight_ctor bs = false
      ↔ ¬ (0 < bs.length ∧ |total_branch_probability bs - 1| ≤ 1 / 10 ^ 3)) ∧
    (solveHind orcs bs T x_init u_nominal mu max_iters convg start_alpha
        false 0 fuel = Res.thrown
      ↔ ¬ (1 < T ∧ 0 ≤ mu ∧ 0 < max_iters ∧ 0 < convg ∧ 0 < start_alpha ∧
           |total_branch_probability bs - 1| ≤ 1 / 10 ^ 3)) ∧
    (set_branch_probability bs branch_num p = none
      ↔ ¬ (branch_num < bs.length ∧ 0 ≤ p ∧ p ≤ 1)) := by
  refine ⟨?_, ?_, ?_, ?_⟩
  · rw [solveSingle]
    split
    case isTrue hc =>
      simp only [Bool.false_eq_true, if_false]
      constructor
      · intro h
        exact absurd h (iterateSingle_ne_thrown orc T x_init mu convg start_alpha
          fuel max_iters none _)
      · intro h
        exact absurd hc h
    case isFalse hc => simp [hc]
  · rw [hindsight_ctor]
    constructor
    · intro h hc
      rw [Bool.and_eq_false_iff] at h
      rcases h with h | h <;> simp only [decide_eq_false_iff_not] at h
      · exact h hc.1
      · exact h hc.2
    · intro h
      rw [Bool.and_eq_false_iff]
      by_cases h1 : 0 < bs.length
      · refine Or.inr ?_
        simp only [decide_eq_false_iff_not]
        intro h2
        exact h ⟨h1, h2⟩
      · refine Or.inl ?_
        simp only [decide_eq_false_iff_not]
        exact h1
  · rw [solveHind]
    split
    case isTrue hc =>
      rw [if_neg (by simp)]
      constructor
      · intro h
        have hInv := hind_cold_inv bs T u_nominal (by omega)
        have := (iterateHind_inv orcs T x_init mu convg start_alpha fuel max_iters none
          ⟨bs.map (fun b =>
            ({ b with
               Ks := List.replicate T 0, ks := List.replicate T 0,
               uhat := List.replicate T u_nominal,
               xhat := List.replicate (T + 1) 0 } : BranchData n m)),
            0, u_nominal, 0, 0⟩ hInv).1
        exact absurd h this
      · intro h
        exact absurd hc h
    case isFalse hc =>
      exact ⟨fun _ => hc, fun _ => rfl⟩
  · rw [set_branch_probability]
    split
    case isTrue hc => simp [hc]
    case isFalse hc => simp [hc]

/-- C9 counterexample: branch probabilities `3/2` and `−1/2` — each far
outside `[0, 1]` — pass the constructor check (they sum to `1`) and a full
`solve()` call runs to completion without being rejected.  So the claim
that the hindsight solver rejects any individual branch probability outside
`[0, 1]` is false of the code. -/
theorem branch_probability_unchecked_cex :
    ¬ ((3 : ℚ) / 2 ≤ 1) ∧ ((bsC9.headD default).probability = 3 / 2) ∧
    hindsight_ctor bsC9 = true ∧
    (solveHind [zeroOrc, zeroOrc] bsC9 2 0 0 0 1 1 1 false 0 1).isThrown = false := by
  refine ⟨by norm_num, by simp [bsC9], ?_, ?_⟩
  · norm_num [hindsight_ctor, bsC9, total_branch_probability]
  · norm_num [solveHind, bsC9, total_branch_probability, iterateHind, line_search,
      hind_cost, branch_fp, forward_pass_aux, acceptB, ratioOkB, zeroOrc, hind_roll,
      hind_backward, branch_sweep, backward_sweep, bellman_backup, merge_fold, merge_step,
      compute_control_stepsize, is_equal_self, Res.isThrown]

/-! ### C8: line-search termination -/

/-- C8 amended: the backtracking line search terminates within `fuel`
halvings iff some halving count `k < fuel` satisfies the acceptance test at
step size `alpha · (1/2)^k` — i.e. the new cost drops below the previous
accepted cost or the relative-change ratio test passes.  (This can fail for
finite costs; see the counterexample.) -/
theorem line_search_terminates_iff_accept (fp : ℚ → ℚ) (convg : ℚ) :
    ∀ (fuel : ℕ) (old : Option ℚ) (alpha : ℚ),
      (∃ r, line_search fp convg fuel old alpha = some r)
        ↔ ∃ k < fuel, acceptB old (fp (alpha * (1 / 2) ^ k)) convg = true
  | 0, old, alpha => by simp [line_search]
  | fuel + 1, old, alpha => by
      rw [line_search]
      by_cases h : acceptB old (fp alpha) convg = true
      · rw [if_pos h]
        constructor
        · intro _
          exact ⟨0, by omega, by simpa using h⟩
        · intro _
          exact ⟨_, rfl⟩
      · rw [if_neg h]
        rw [line_search_terminates_iff_accept fp convg fuel old (alpha * (1 / 2))]
        constructor
        · rintro ⟨k, hk, hacc⟩
          refine ⟨k + 1, by omega, ?_⟩
          rw [show alpha * (1 / 2) ^ (k + 1) = alpha * (1 / 2) * (1 / 2) ^ k by ring]
          exact hacc
        · rintro ⟨k, hk, hacc⟩
          cases k with
          | zero =>
              rw [pow_zero, mul_one] at hacc
              exact absurd hacc h
          | succ k' =>
              refine ⟨k', by omega, ?_⟩
              rw [show alpha * (1 / 2) * (1 / 2) ^ k' = alpha * (1 / 2) ^ (k' + 1) by ring]
              exact hacc

/-- The zero problem's running cost is identically zero. -/
theorem zeroOrc_cost (x u : Vec 1) (t : ℕ) : zeroOrc.cost x u t = 0 := rfl

/-- The zero problem's terminal cost is identically zero. -/
theorem zeroOrc_final (x : Vec 1) : zeroOrc.final_cost x = 0 := rfl

/-- The identically-zero-cost problem: every rollout cost is zero. -/
theorem zero_fp_cost :
    ∀ (Ks : List (Mat 1 1)) (ks us : List (Vec 1)) (xs : List (Vec 1))
      (x : Vec 1) (t : ℕ) (a : ℚ),
      (forward_pass_aux zeroOrc Ks ks us xs x t a).2.2 = 0
  | [], ks, us, xs, x, t, a => by
      cases ks <;> cases us <;> cases xs <;>
        simp [forward_pass_aux, zeroOrc_final]
  | K :: Ks, ks, us, xs, x, t, a => by
      cases ks <;> cases us <;> cases xs <;>
        simp [forward_pass_aux, zeroOrc_final, zeroOrc_cost, zero_fp_cost Ks]

/-- With `old_cost = +∞` (first outer iteration) the very first step size is
accepted, with the ratio flag false. -/
theorem line_search_none_accepts (fp : ℚ → ℚ) (convg alpha : ℚ) (fuel : ℕ) :
    line_search fp convg (fuel + 1) none alpha = some (fp alpha, false, alpha) := by
  rw [line_search, if_pos (by simp [acceptB])]
  rfl

/-- With `old_cost = 0` and a cost that evaluates to `0` at every step
size, no halving is ever accepted: `0 < 0` fails and the ratio test
computes `0/0` (IEEE `NaN`), which compares false. -/
theorem line_search_zero_none (fp : ℚ → ℚ) (hfp : ∀ a, fp a = 0) (convg : ℚ) :
    ∀ (fuel : ℕ) (alpha : ℚ), line_search fp convg fuel (some 0) alpha = none
  | 0, alpha => rfl
  | fuel + 1, alpha => by
      rw [line_search, if_neg (by simp [acceptB, ratioOkB, hfp])]
      exact line_search_zero_none fp hfp convg fuel _

/-- C8 counterexample: on the identically-zero-cost problem (every
forward-pass cost is the finite value `0`), the first outer iteration
accepts cost `0`, and the second iteration's line search then rejects every
step size forever — `solve` does not terminate for any fuel.  So the claim
that the line search always terminates when all costs are finite is false
of the code. -/
theorem line_search_nontermination_cex :
    ¬ ∃ (fuel : ℕ) (s : SChain 1 1),
      solveSingle zeroOrc 1 0 0 0 2 (1 / 100) 1 false 0 ⟨[], [], [], []⟩ fuel
        = Res.ok s := by
  rintro ⟨fuel, s, h⟩
  have hcc : ∀ (sc : SChain 1 1) (x : Vec 1) (a : ℚ), chain_cost zeroOrc sc x a = 0 :=
    fun sc x a => zero_fp_cost sc.Ks sc.ks sc.uhat sc.xhat x 0 a
  have h2 : solveSingle zeroOrc 1 (0 : Vec 1) (0 : Vec 1) 0 2 (1 / 100) 1 false 0
        ⟨[], [], [], []⟩ fuel
      = iterateSingle zeroOrc 1 0 0 (1 / 100) 1 fuel 2 none
          ⟨List.replicate 1 0, List.replicate 1 0, List.replicate 1 0,
           List.replicate 2 0⟩ := by
    rw [solveSingle, if_pos (by norm_num)]
    rfl
  rw [h2] at h
  cases fuel with
  | zero =>
      rw [iterateSingle] at h
      simp [line_search] at h
  | succ f =>
      rw [iterateSingle, line_search_none_accepts] at h
      simp only [] at h
      rw [hcc] at h
      rw [if_neg (by simp)] at h
      rw [iterateSingle, line_search_zero_none _ (fun a => hcc _ 0 a)] at h
      exact Res.noConfusion h

/-- `headD` is `getD` at index `0` (the solvers read the first slot both
ways: `xhat_[0]` in the backup loops versus `front()` in the hindsight
merge). -/
theorem list_headD_eq_getD {α : Type} (l : List α) (d : α) :
    l.headD d = l.getD 0 d := by
  cases l <;> rfl

/-- Peeling the last processed step off a backward sweep: sweeping
`count + 1` steps down to `stop` is the sweep of `count` steps down to
`stop + 1` followed by one `bellman_backup` at `t = stop`, whose gains are
consed in front of the inner sweep's gain lists. -/
theorem backward_sweep_succ {n m : ℕ} (orc : Oracles n m) (mu : ℚ)
    (xh : List (Vec n)) (uh : List (Vec m)) (stop : ℕ) :
    ∀ (c : ℕ) (V : Mat n n) (G : Mat 1 n),
      backward_sweep orc mu xh uh stop (c + 1) V G
        = (((bellman_backup orc stop mu (xh.getD stop 0) (uh.getD stop 0)
              (backward_sweep orc mu xh uh (stop + 1) c V G).1.1
              (backward_sweep orc mu xh uh (stop + 1) c V G).1.2).Vt,
            (bellman_backup orc stop mu (xh.getD stop 0) (uh.getD stop 0)
              (backward_sweep orc mu xh uh (stop + 1) c V G).1.1
              (backward_sweep orc mu xh uh (stop + 1) c V G).1.2).Gt),
           (bellman_backup orc stop mu (xh.getD stop 0) (uh.getD stop 0)
              (backward_sweep orc mu xh uh (stop + 1) c V G).1.1
              (backward_sweep orc mu xh uh (stop + 1) c V G).1.2).Kt
             :: (backward_sweep orc mu xh uh (stop + 1) c V G).2.1,
           (bellman_backup orc stop mu (xh.getD stop 0) (uh.getD stop 0)
              (backward_sweep orc mu xh uh (stop + 1) c V G).1.1
              (backward_sweep orc mu xh uh (stop + 1) c V G).1.2).kt
             :: (backward_sweep orc mu xh uh (stop + 1) c V G).2.2)
  | 0, V, G => by
      simp [backward_sweep]
  | c + 1, V, G => by
      have h1 : backward_sweep orc mu xh uh stop (c + 1 + 1) V G
          = ((backward_sweep orc mu xh uh stop (c + 1)
                (bellman_backup orc (stop + (c + 1)) mu (xh.getD (stop + (c + 1)) 0)
                  (uh.getD (stop + (c + 1)) 0) V G).Vt
                (bellman_backup orc (stop + (c + 1)) mu (xh.getD (stop + (c + 1)) 0)
                  (uh.getD (stop + (c + 1)) 0) V G).Gt).1,
             (backward_sweep orc mu xh uh stop (c + 1)
                (bellman_backup orc (stop + (c + 1)) mu (xh.getD (stop + (c + 1)) 0)
                  (uh.getD (stop + (c + 1)) 0) V G).Vt
                (bellman_backup orc (stop + (c + 1)) mu (xh.getD (stop + (c + 1)) 0)
                  (uh.getD (stop + (c + 1)) 0) V G).Gt).2.1
               ++ [(bellman_backup orc (stop + (c + 1)) mu (xh.getD (stop + (c + 1)) 0)
                  (uh.getD (stop + (c + 1)) 0) V G).Kt],
             (backward_sweep orc mu xh uh stop (c + 1)
                (bellman_backup orc (stop + (c + 1)) mu (xh.getD (stop + (c + 1)) 0)
                  (uh.getD (stop + (c + 1)) 0) V G).Vt
                (bellman_backup orc (stop + (c + 1)) mu (xh.getD (stop + (c + 1)) 0)
                  (uh.getD (stop + (c + 1)) 0) V G).Gt).2.2
               ++ [(bellman_backup orc (stop + (c + 1)) mu (xh.getD (stop + (c + 1)) 0)
                  (uh.getD (stop + (c + 1)) 0) V G).kt]) := rfl
      have h2 : backward_sweep orc mu xh uh (stop + 1) (c + 1) V G
          = ((backward_sweep orc mu xh uh (stop + 1) c
                (bellman_backup orc (stop + 1 + c) mu (xh.getD (stop + 1 + c) 0)
                  (uh.getD (stop + 1 + c) 0) V G).Vt
                (bellman_backup orc (stop + 1 + c) mu (xh.getD (stop + 1 + c) 0)
                  (uh.getD (stop + 1 + c) 0) V G).Gt).1,
             (backward_sweep orc mu xh uh (stop + 1) c
                (bellman_backup orc (stop + 1 + c) mu (xh.getD (stop + 1 + c) 0)
                  (uh.getD (stop + 1 + c) 0) V G).Vt
                (bellman_backup orc (stop + 1 + c) mu (xh.getD (stop + 1 + c) 0)
                  (uh.getD (stop + 1 + c) 0) V G).Gt).2.1
               ++ [(bellman_backup orc (stop + 1 + c) mu (xh.getD (stop + 1 + c) 0)
                  (uh.getD (stop + 1 + c) 0) V G).Kt],
             (backward_sweep orc mu xh uh (stop + 1) c
                (bellman_backup orc (stop + 1 + c) mu (xh.getD (stop + 1 + c) 0)
                  (uh.getD (stop + 1 + c) 0) V G).Vt
                (bellman_backup orc (stop + 1 + c) mu (xh.getD (stop + 1 + c) 0)
                  (uh.getD (stop + 1 + c) 0) V G).Gt).2.2
               ++ [(bellman_backup orc (stop + 1 + c) mu (xh.getD (stop + 1 + c) 0)
                  (uh.getD (stop + 1 + c) 0) V G).kt]) := rfl
      rw [h1, backward_sweep_succ orc mu xh uh stop c, h2]
      have harith : stop + 1 + c = stop + (c + 1) := by omega
      rw [harith]
      simp [List.cons_append]

/-- Collapse of the hindsight backward section on a single branch of
probability `1`: the per-branch sweep plus the shared `t = 0` merge compute
exactly the single-chain backward pass on the branch's data, with the merged
`(K0, k0)` equal to the head of the chain's new gain lists, provided the
merge's linearization point is the branch's first rollout state/control. -/
theorem hind_backward_single {n m : ℕ} (orc : Oracles n m) (T : ℕ) (hT : 1 ≤ T)
    (mu : ℚ) (Ks : List (Mat m n)) (ks : List (Vec m))
    (uh : List (Vec m)) (xh : List (Vec n)) :
    hind_backward [orc] T mu (xh.headD 0) (uh.headD 0) [⟨1, Ks, ks, uh, xh⟩]
      = (((backward_pass orc mu T ⟨Ks, ks, uh, xh⟩).1.headD 0,
          (backward_pass orc mu T ⟨Ks, ks, uh, xh⟩).2.headD 0),
         [⟨1, (backward_pass orc mu T ⟨Ks, ks, uh, xh⟩).1,
              (backward_pass orc mu T ⟨Ks, ks, uh, xh⟩).2, uh, xh⟩]) := by
  obtain ⟨c, rfl⟩ : ∃ c, T = c + 1 := ⟨T - 1, by omega⟩
  rw [list_headD_eq_getD xh, list_headD_eq_getD uh]
  simp only [backward_pass, backward_sweep_succ, hind_backward, branch_sweep,
    bellman_backup, merge_fold, merge_step, List.zip_cons_cons, List.zip_nil_right,
    List.zip_nil_left, List.map_cons, List.map_nil, List.foldl_cons, List.foldl_nil,
    Nat.add_sub_cancel, Nat.zero_add, zero_add, one_smul, List.headD_cons]

/-- Lock-step equivalence of the two outer iteration loops on a single
probability-`1` branch: through any number of iterations, the hindsight loop
started from the bridged state `toH s` computes exactly `toH` of the
single-chain loop's result (same line search, same committed rollouts, same
backward passes, and the first-slot assertions always pass). -/
theorem iterate_single_branch_equiv {n m : ℕ} (orc : Oracles n m) (T : ℕ)
    (hT : 1 ≤ T) (x_init : Vec n) (mu convg start_alpha : ℚ) (fuel : ℕ) :
    ∀ (iters : ℕ) (old : Option ℚ) (s : SChain n m),
      iterateHind [orc] T x_init mu convg start_alpha fuel iters old (toH s)
        = Res.map toH (iterateSingle orc T x_init mu convg start_alpha fuel iters old s)
  | 0, _, _ => rfl
  | iters + 1, old, s => by
      have hcost : hind_cost [orc] (toH s).branches x_init
          = chain_cost orc s x_init := by
        funext a
        simp [hind_cost, chain_cost, branch_fp, toH, List.zip_cons_cons,
          List.zip_nil_right]
      rcases hls : line_search (chain_cost orc s x_init) convg fuel old start_alpha
        with _ | r
      · simp only [iterateHind, iterateSingle, hcost, hls]
        rfl
      · rcases hrk : r.2.1 with _ | _
        · -- ratio test failed: both loops run the backward pass and recurse
          simp only [iterateHind, iterateSingle, hcost, hls, hrk,
            Bool.false_eq_true, if_false]
          rw [show hind_roll [orc] x_init r.2.2 (toH s).branches
              = [⟨1, s.Ks, s.ks,
                  (forward_pass_aux orc s.Ks s.ks s.uhat s.xhat x_init 0 r.2.2).2.1,
                  (forward_pass_aux orc s.Ks s.ks s.uhat s.xhat x_init 0 r.2.2).1⟩]
            from rfl]
          simp only [List.headD_cons]
          rw [hind_backward_single orc T hT mu s.Ks s.ks
            (forward_pass_aux orc s.Ks s.ks s.uhat s.xhat x_init 0 r.2.2).2.1
            (forward_pass_aux orc s.Ks s.ks s.uhat s.xhat x_init 0 r.2.2).1]
          simp only [List.all_cons, List.all_nil, is_equal_self, Bool.and_self,
            Bool.and_true, Bool.true_and, eq_self_iff_true, if_true]
          exact iterate_single_branch_equiv orc T hT x_init mu convg start_alpha
            fuel iters (some r.1)
            ⟨(backward_pass orc mu T
                ⟨s.Ks, s.ks,
                 (forward_pass_aux orc s.Ks s.ks s.uhat s.xhat x_init 0 r.2.2).2.1,
                 (forward_pass_aux orc s.Ks s.ks s.uhat s.xhat x_init 0 r.2.2).1⟩).1,
             (backward_pass orc mu T
                ⟨s.Ks, s.ks,
                 (forward_pass_aux orc s.Ks s.ks s.uhat s.xhat x_init 0 r.2.2).2.1,
                 (forward_pass_aux orc s.Ks s.ks s.uhat s.xhat x_init 0 r.2.2).1⟩).2,
             (forward_pass_aux orc s.Ks s.ks s.uhat s.xhat x_init 0 r.2.2).2.1,
             (forward_pass_aux orc s.Ks s.ks s.uhat s.xhat x_init 0 r.2.2).1⟩
        · -- ratio test passed: both loops return the committed rollout
          simp only [iterateHind, iterateSingle, hcost, hls, hrk, if_true]
          rfl

/-- C6: refinement/equivalence of the single-branch hindsight solver and the
single-chain solver.  For every problem `orc`, every branch `b` of
probability `1`, and identical solve arguments with `warm_start = false`, a
hindsight `solve` on the one-branch list returns exactly (`toH` of) the
single-chain `solve` result: the same nominal trajectory `xhat`, controls
`uhat`, and gains `Ks, ks` — equality on the nose, which is stronger than
the claim's `10⁻¹⁰` tolerance.  The hypothesis `T ≠ 1` carves out the one
argument the two solvers gate differently (`T > 1` versus `T > 0`): at
`T = 1` the hindsight call throws while the single-chain call runs; for
every other `T` (including all invalid arguments, where both throw) the
results agree. -/
theorem single_branch_hindsight_equiv {n m : ℕ} (orc : Oracles n m)
    (b : BranchData n m) (T : ℕ) (x_init : Vec n) (u_nominal : Vec m)
    (mu : ℚ) (max_iters : ℕ) (convg start_alpha : ℚ) (t_offset : ℕ)
    (s_prev : SChain n m) (fuel : ℕ)
    (hb : b.probability = 1) (hT : T ≠ 1) :
    solveHind [orc] [b] T x_init u_nominal mu max_iters convg start_alpha
        false t_offset fuel
      = Res.map toH (solveSingle orc T x_init u_nominal mu max_iters convg
          start_alpha false t_offset s_prev fuel) := by
  have htot : |total_branch_probability [b] - 1| ≤ 1 / 10 ^ 3 := by
    unfold total_branch_probability
    rw [List.foldl_cons, List.foldl_nil, hb]
    norm_num
  by_cases hc : 0 < T ∧ 0 ≤ mu ∧ 0 < max_iters ∧ 0 < convg ∧ 0 < start_alpha
  · have hT0 : 0 < T := hc.1
    obtain ⟨k, rfl⟩ : ∃ k, T = k + 1 + 1 := ⟨T - 2, by omega⟩
    rw [solveHind, solveSingle,
      if_pos (⟨by omega, hc.2.1, hc.2.2.1, hc.2.2.2.1, hc.2.2.2.2, htot⟩ :
        1 < k + 1 + 1 ∧ 0 ≤ mu ∧ 0 < max_iters ∧ 0 < convg ∧ 0 < start_alpha ∧
        |total_branch_probability [b] - 1| ≤ 1 / 10 ^ 3),
      if_pos hc]
    simp only [Bool.false_eq_true, if_false]
    rw [← iterate_single_branch_equiv orc (k + 1 + 1) (by omega) x_init mu convg
      start_alpha fuel max_iters none
      ⟨List.replicate (k + 1 + 1) 0, List.replicate (k + 1 + 1) 0,
       List.replicate (k + 1 + 1) u_nominal, List.replicate (k + 1 + 1 + 1) 0⟩]
    congr 1
    simp [toH, hb, List.replicate_succ]
  · have hneg : ¬(1 < T ∧ 0 ≤ mu ∧ 0 < max_iters ∧ 0 < convg ∧ 0 < start_alpha ∧
        |total_branch_probability [b] - 1| ≤ 1 / 10 ^ 3) := by
      intro hcond
      obtain ⟨h1, h2, h3, h4, h5, h6⟩ := hcond
      exact hc ⟨by omega, h2, h3, h4, h5⟩
    rw [solveHind, solveSingle, if_neg hneg, if_neg hc]
    rfl

/-- C6 witness: the equivalence theorem applied at a concrete single branch
of probability `1`, horizon `T = 2`, on the zero problem. -/
theorem single_branch_hindsight_equiv_witness :
    ((⟨1, [], [], [], []⟩ : BranchData 1 1).probability = 1 ∧ (2 : ℕ) ≠ 1) ∧
    solveHind [zeroOrc] [⟨1, [], [], [], []⟩] 2 0 0 0 1 1 1 false 0 1
      = Res.map toH (solveSingle zeroOrc 2 0 0 0 1 1 1 false 0 ⟨[], [], [], []⟩ 1) :=
  ⟨⟨rfl, by decide⟩,
   single_branch_hindsight_equiv zeroOrc ⟨1, [], [], [], []⟩ 2 0 0 0 1 1 1 0
     ⟨[], [], [], []⟩ 1 rfl (by decide)⟩
